import Mathlib

/-!
Verification of the CQN-to-SQL query normalization core (cqn4sql plus infer).

The development shallowly embeds the JavaScript source of the repository:
the rewrite phase (function cqn4sql and its helpers, first source file) and
the inference phase (function infer, second source file).  CSN definitions,
CQN token streams and columns become inductive Lean types; each embedded
function is a direct transcription of the corresponding JavaScript function,
with JS truthiness and splice semantics made explicit.  Recursion that is
unbounded in JS (nested token streams, structured elements) is driven by an
explicit fuel parameter; every function is total and executable.

Parts of the JS object graph that cannot be represented directly are modelled
as data: the parent back-pointer of an element is replaced by the derived
values it is used for (fullName, parentIsEntity, parentEntity), and hidden
non-enumerable metadata ($refLinks, flatName, isJoinRelevant) is carried as
ordinary fields, mirroring the state of the objects after inference.
-/

namespace CqnSql

/-- JavaScript-style literal values appearing as the val property of tokens
and columns. -/
inductive Val where
  | vnull : Val
  | vint : Int → Val
  | vstr : String → Val
  | vbool : Bool → Val
deriving DecidableEq, Repr

/-- JS truthiness of a literal value: null, 0, the empty string and false are
falsy, everything else is truthy. -/
def Val.truthy : Val → Bool
  | .vnull => false
  | .vint n => n != 0
  | .vstr s => !s.isEmpty
  | .vbool b => b

/-- The string a JS engine uses when a value becomes an object key. -/
def Val.keyString : Val → String
  | .vnull => "null"
  | .vint n => toString n
  | .vstr s => s
  | .vbool b => if b then "true" else "false"

/-- A foreign key entry of a managed association (an element of the keys
array of a linked association: a ref plus an optional alias). -/
structure FK where
  ref : List String
  as : Option String := none
deriving DecidableEq, Repr

/-- A token of an unmanaged on-condition as far as backlink detection needs
it: a reference or an operator string. -/
inductive OnTok where
  | oref : List String → OnTok
  | ostr : String → OnTok
deriving DecidableEq, Repr

/-- A CSN definition (entity, element, association or structured element).
The JS object graph is cyclic (elements point back to their parent, and on
linked models the association target is an object); here `target` and
`parentEntity` are names resolved through the model map, and `fullName` and
`parentIsEntity` carry the values the source derives from the parent chain
(`getFullName(node)` and `node.parent.kind === 'entity'`).  `fks` models
the keys array of a managed association, `entityKeys` the names of the key
elements of an entity (the keys dictionary of a linked entity), and
`foreignKeys` the names in the foreignKeys dictionary of a linked managed
association. -/
inductive Def where
  | mk :
    (name : String) → (kind : String) →
    (elements : List (String × Def)) →
    (fks : Option (List FK)) →
    (entityKeys : List String) →
    (target : Option String) →
    (onCond : Option (List OnTok)) →
    (is2one : Bool) → (virt : Bool) →
    (fullName : String) → (parentIsEntity : Bool) →
    (parentEntity : Option String) →
    (foreignKeys : Option (List String)) →
    (typeName : String) →
    (localizedFalse : Bool) → (persistenceSkip : Bool) → Def

namespace Def

def name : Def → String | .mk n _ _ _ _ _ _ _ _ _ _ _ _ _ _ _ => n
def kind : Def → String | .mk _ k _ _ _ _ _ _ _ _ _ _ _ _ _ _ => k
def elements : Def → List (String × Def) | .mk _ _ e _ _ _ _ _ _ _ _ _ _ _ _ _ => e
def fks : Def → Option (List FK) | .mk _ _ _ f _ _ _ _ _ _ _ _ _ _ _ _ => f
def entityKeys : Def → List String | .mk _ _ _ _ ek _ _ _ _ _ _ _ _ _ _ _ => ek
def target : Def → Option String | .mk _ _ _ _ _ t _ _ _ _ _ _ _ _ _ _ => t
def onCond : Def → Option (List OnTok) | .mk _ _ _ _ _ _ o _ _ _ _ _ _ _ _ _ => o
def is2one : Def → Bool | .mk _ _ _ _ _ _ _ b _ _ _ _ _ _ _ _ => b
def virt : Def → Bool | .mk _ _ _ _ _ _ _ _ v _ _ _ _ _ _ _ => v
def fullName : Def → String | .mk _ _ _ _ _ _ _ _ _ fn _ _ _ _ _ _ => fn
def parentIsEntity : Def → Bool | .mk _ _ _ _ _ _ _ _ _ _ p _ _ _ _ _ => p
def parentEntity : Def → Option String | .mk _ _ _ _ _ _ _ _ _ _ _ pe _ _ _ _ => pe
def foreignKeys : Def → Option (List String) | .mk _ _ _ _ _ _ _ _ _ _ _ _ fk _ _ _ => fk
def typeName : Def → String | .mk _ _ _ _ _ _ _ _ _ _ _ _ _ t _ _ => t
def localizedFalse : Def → Bool | .mk _ _ _ _ _ _ _ _ _ _ _ _ _ _ l _ => l
def persistenceSkip : Def → Bool | .mk _ _ _ _ _ _ _ _ _ _ _ _ _ _ _ p => p

/-- Truthiness of the isAssociation flag of a linked definition: a definition
with a target is an association (managed or unmanaged). -/
def isAssociation (d : Def) : Bool := d.target.isSome

/-- Looks up a child element by name (the elements dictionary). -/
def elem? (d : Def) (nm : String) : Option Def :=
  (d.elements.find? (fun p => p.1 == nm)).map Prod.snd

end Def

instance : Inhabited Def :=
  ⟨Def.mk "" "" [] none [] none none false false "" true none none "" false false⟩

/-- A scalar element living directly in an entity. -/
def mkScalar (nm : String) : Def :=
  Def.mk nm "element" [] none [] none none false false nm true none none "" false false

/-- A scalar element nested inside a structure; full is its flat name
computed over the parent chain. -/
def mkScalarIn (nm full : String) : Def :=
  Def.mk nm "element" [] none [] none none false false full false none none "" false false

/-- A structured element living directly in an entity. -/
def mkStruct (nm : String) (els : List (String × Def)) : Def :=
  Def.mk nm "element" els none [] none none false false nm true none none "" false false

/-- A managed to-one association living directly in an entity. -/
def mkAssoc (nm tgt : String) (keys : List FK) (parentE : String) : Def :=
  Def.mk nm "element" [] (some keys) [] (some tgt) none true false nm true (some parentE)
    (some (keys.map (fun k => nm ++ "_" ++ (k.as.getD (k.ref.getLastD ""))))) "cds.Association" false false

/-- An entity definition. -/
def mkEntity (nm : String) (els : List (String × Def)) (keys : List String) : Def :=
  Def.mk nm "entity" els none keys none none false false nm true none none "" false false

/-- The per-step resolution metadata attached during inference: the resolved
definition, the target in which the next step resolves, the assigned table
alias, and the only-foreign-key flag. -/
structure RefLink where
  definition : Def
  target : Def
  alias' : String
  onlyFk : Bool := false

instance : Inhabited RefLink := ⟨⟨default, default, "", false⟩⟩

/-- Reference metadata carried on a ref token or column, mirroring the
hidden properties the source attaches during inference plus the enumerable
as / cast / sort properties. -/
structure RefMeta where
  refLinks : Option (List RefLink) := none
  param : Bool := false
  flatName : Option String := none
  isJoinRelevant : Bool := false
  as : Option String := none
  cast : Option String := none
  sort : Option String := none

instance : Inhabited RefMeta := ⟨{}⟩

mutual
/-- A step of a ref path: a plain identifier or an identifier with an infix
filter (the where property of the step). -/
inductive Step where
  | plain : String → Step
  | filtered : String → List Token → Step

/-- A token of a CQN token stream (where, having, on, xpr, args): operator
or keyword strings, literal values, references, lists, nested expressions,
function calls and subselects (the latter appear in the output of the
where-exists expansion). -/
inductive Token where
  | str : String → Token
  | tval : Val → Token
  | tref : List Step → RefMeta → Token
  | tlist : List Token → Token
  | txpr : List Token → Token
  | tfunc : String → List Token → Token
  | tselect : SubSelect → Token

/-- The SELECT produced by the where-exists expansion:
SELECT 1 FROM fromRef AS fromAs WHERE whereTs. -/
inductive SubSelect where
  | mk : (fromRef : String) → (fromAs : String) → (cols : List Token) →
         (whereTs : List Token) → SubSelect
end

namespace SubSelect
def fromRef : SubSelect → String | .mk f _ _ _ => f
def fromAs : SubSelect → String | .mk _ a _ _ => a
def cols : SubSelect → List Token | .mk _ _ c _ => c
def whereTs : SubSelect → List Token | .mk _ _ _ w => w
end SubSelect

/-- The identifier of a step (the source helper idOnly). -/
def Step.id : Step → String
  | .plain s => s
  | .filtered s _ => s

/-- The infix filter of a step, if any. -/
def Step.filter : Step → Option (List Token)
  | .plain _ => none
  | .filtered _ w => some w

/-- The string a JS engine produces for a step used in a raw string context
(plain strings render as themselves, step objects as object stringification). -/
def Step.jsString : Step → String
  | .plain s => s
  | .filtered _ _ => "[object Object]"

/-- ASCII lowercase of one character (Char.toLower over the ASCII range,
written so that it reduces in the kernel). -/
def lowerChar (c : Char) : Char :=
  if 'A' ≤ c && c ≤ 'Z' then Char.ofNat (c.toNat + 32) else c

/-- toLowerCase as the source uses it on operator keywords. -/
def jsToLower (s : String) : String := String.mk (s.data.map lowerChar)

/-- Splitting a character list at dots. -/
def splitDotAux : List Char → List Char → List (List Char)
  | [], cur => [cur.reverse]
  | c :: rest, cur =>
    if c = '.' then cur.reverse :: splitDotAux rest [] else splitDotAux rest (c :: cur)

/-- The split on dots the source applies to qualified names (written so that
it reduces in the kernel). -/
def splitOnDot (s : String) : List String := (splitDotAux s.data []).map String.mk

/-- The operator families driving structural comparison expansion, transcribed
from the top of the source file: eqOps connect expanded pairs with and. -/
def eqOps : List (List String) := [["is"], ["="]]

/-- Operators connecting expanded pairs with or. -/
def notEqOps : List (List String) := [["is", "not"], ["<>"], ["!="]]

/-- Operators rejected on structural operands. -/
def notSupportedOps : List (List String) := [[">"], ["<"], [">="], ["<="]]

/-- allOps = eqOps.concat(eqOps).concat(notEqOps).concat(notSupportedOps). -/
def allOps : List (List String) := eqOps ++ eqOps ++ notEqOps ++ notSupportedOps

/-- The evaluation environment of one rewrite: the model definitions, the
combined elements of the query (element name to source index), the source
aliases and the localized flag of the inferred SELECT. -/
structure Env where
  defs : List (String × Def)
  combined : List (String × String) := []
  sources : List String := []
  localizedQ : Bool := false

/-- model.definitions lookup. -/
def Env.lookupDef (env : Env) (nm : String) : Option Def :=
  (env.defs.find? (fun p => p.1 == nm)).map Prod.snd

/-- Modelled from the spec: the pseudo-namespace table.  The source file
infer/pseudos.js is required by both source files but is not part of src/;
per spec section 4.2 the session and context roots resolve to synthetic
definitions whose child elements (user id, locale) are themselves pseudo
definitions. -/
def pseudoUser : Def :=
  Def.mk "$user" "" [("id", Def.mk "id" "" [] none [] none none false false "id" true none none "" false false),
                     ("locale", Def.mk "locale" "" [] none [] none none false false "locale" true none none "" false false)]
    none [] none none false false "$user" true none none "" false false

/-- Modelled from the spec: the remaining pseudo roots are plain synthetic
definitions without children. -/
def pseudos : List (String × Def) :=
  [("$user", pseudoUser),
   ("$now", Def.mk "$now" "" [] none [] none none false false "$now" true none none "" false false),
   ("$at", Def.mk "$at" "" [] none [] none none false false "$at" true none none "" false false)]

/-- pseudos.elements[nm]. -/
def pseudoElem? (nm : String) : Option Def :=
  (pseudos.find? (fun p => p.1 == nm)).map Prod.snd

/-- The isLocalized helper: the query is localized and the definition does
not opt out via the cds.localized annotation. -/
def isLocalizedDef (env : Env) (d : Def) : Bool :=
  env.localizedQ && !d.localizedFalse

/-- The localized helper: name of the localized view of the definition when
the query is localized, the definition name otherwise. -/
def localizedName (env : Env) (d : Def) : String :=
  if !isLocalizedDef env d then d.name
  else match env.lookupDef ("localized." ++ d.name) with
    | some view => if view.name.isEmpty then d.name else view.name
    | none => d.name

/-- The assocTarget helper: the model definition of the association target. -/
def assocTarget (env : Env) (d : Def) : Option Def :=
  d.target.bind env.lookupDef

/-- The getElementForRef helper: resolve a ref inside a definition, stepping
through elements and, for associations, target elements. -/
def getElementForRef (env : Env) (ref : List String) (d : Option Def) : Option Def :=
  ref.foldl (fun prev res =>
    match prev with
    | none => none
    | some p =>
      match p.elem? res with
      | some e => some e
      | none => (p.target.bind env.lookupDef).bind (fun t => t.elem? res)) d

/-- isStructured: an element with child elements. -/
def isStructured (d : Option Def) : Bool :=
  match d with
  | some e => !e.elements.isEmpty && e.kind == "element"
  | none => false

/-- isAssocOrStruct: a managed association (keys) or a structured element. -/
def isAssocOrStruct (d : Option Def) : Bool :=
  match d with
  | some e => e.fks.isSome || (!e.elements.isEmpty && e.kind == "element")
  | none => false

/-- hasLogicalOr on a token stream (the JS membership test only matches the
strings or and OR). -/
def hasLogicalOr (ts : List Token) : Bool :=
  ts.any (fun t => match t with | .str s => s == "OR" || s == "or" | _ => false)

/-- JS Array.prototype.splice with a possibly negative start index. -/
def jsSplice {α : Type} (l : List α) (start : Int) (deleteCount : Nat) (items : List α) : List α :=
  let len : Int := l.length
  let s : Nat := (if start < 0 then max (len + start) 0 else min start len).toNat
  l.take s ++ items ++ l.drop (s + deleteCount)

/-- JS Array.prototype.slice with possibly negative bounds. -/
def jsSlice {α : Type} (l : List α) (start stop : Int) : List α :=
  let len : Int := l.length
  let s : Nat := (if start < 0 then max (len + start) 0 else min start len).toNat
  let e : Nat := (if stop < 0 then max (len + stop) 0 else min stop len).toNat
  (l.take e).drop s

/-- Splitting an on-condition into (lhs, rhs) pairs of consecutive triples,
as the index loop of backlinkFor does. -/
def onTriples : List OnTok → List (OnTok × OnTok)
  | a :: _ :: c :: rest => (a, c) :: onTriples rest
  | _ => []

/-- backlinkFor: the elements of the association target (or of the parent
entity for self-rooted refs) that are compared to the $self pseudo in the
on-condition of the association; none when the association has no
on-condition. -/
def backlinkFor (env : Env) (assoc : Def) : Option (List (Option Def)) :=
  match assoc.onCond with
  | none => none
  | some onc =>
    let target := env.lookupDef (assoc.target.getD "")
    let backrefs := (onTriples onc).foldl (fun acc p =>
      match p with
      | (OnTok.oref l, r) =>
        if l = ["$self"] then acc ++ [r]
        else match r with
          | OnTok.oref rr => if rr = ["$self"] then acc ++ [OnTok.oref l] else acc
          | _ => acc
      | (l, OnTok.oref rr) => if rr = ["$self"] then acc ++ [l] else acc
      | _ => acc) ([] : List OnTok)
    some (backrefs.map (fun each =>
      match each with
      | OnTok.oref r =>
        let base := if r.headD "" = "$self" || r.headD "" = "$projection"
          then assoc.parentEntity.bind env.lookupDef else target
        getElementForRef env (r.drop 1) base
      | _ => none))

/-- backlinkFor(assoc)?.[0] as the callers use it. -/
def backlink0 (env : Env) (assoc : Def) : Option Def :=
  match backlinkFor env assoc with
  | none => none
  | some l => (l.head?).getD none

/-- A flat output column: the rewritten ref path, the optional alias (the
empty string models an absent alias), cast and sort decorations, and the
hidden csnPath used for structural matching. -/
structure FlatCol where
  path : List String
  as : String := ""
  cast : Option String := none
  sort : Option String := none
  csnPath : List String := []
deriving DecidableEq, Repr

instance : Inhabited FlatCol := ⟨{ path := [] }⟩

/-- A flat column pushed back into a token stream. -/
def FlatCol.toToken (f : FlatCol) : Token :=
  .tref (f.path.map Step.plain)
    { as := if f.as = "" then none else some f.as, cast := f.cast, sort := f.sort }

/-- The polymorphic argument of getFlatColumnsFor: either a resolved column
(refLinks present) or a bare CSN element (the element field). -/
structure FCol where
  element : Def
  refLinks : Option (List RefLink) := none
  flatName : String := ""
  isJoinRelevant : Bool := false
  ref : List Step := []
  cast : Option String := none
  sort : Option String := none

/-- Wraps a bare element for getFlatColumnsFor, as the JS call sites that
pass a CSN definition do. -/
def FCol.ofDef (d : Def) : FCol := { element := d }

/-- An entry of the exclude or replace list of the wildcard machinery. -/
inductive Repl where
  | rs : String → Repl
  | rc : (as : String) → (ref : List String) → Repl

/-- The name against which getReplacement compares an element:
replacement.as, else the last ref step, else the replacement string itself. -/
def Repl.name? : Repl → Option String
  | .rs s => some s
  | .rc a r => if a ≠ "" then some a else r.getLast?

/-- getReplacement inside getFlatColumnsFor. -/
def getReplacement (element : Def) (l : List Repl) : Option Repl :=
  l.find? (fun rep => rep.name? == some element.name)

/-- The node shape getQuerySourceName consumes: a ref path with its links
and join relevance. -/
structure NodeRef where
  path : List Step
  refLinks : List RefLink
  isJoinRelevant : Bool := false

/-- getQuerySourceName: the table alias that addresses the node.  With a
base link it is the alias of the base link; for join relevant nodes it is
the alias of the last non-fk association link; otherwise the first ref step
when it is an entity (or subquery) alias, else the combined-elements index
of the first step. -/
def getQuerySourceName (env : Env) (n : NodeRef) (baseLink : Option RefLink) :
    Except String String :=
  match baseLink with
  | some blv => pure blv.alias'
  | none =>
    if n.isJoinRelevant then
      match n.refLinks.reverse.find? (fun l => l.definition.isAssociation && !l.onlyFk) with
      | some l => pure l.alias'
      | none => .error "no join relevant association link"
    else
      let first := n.refLinks.headD default
      if first.definition.kind == "entity" then
        pure ((n.path.headD (Step.plain "")).id)
      else
        match env.combined.find? (fun p => p.1 == (n.path.headD (Step.plain "")).id) with
        | some p => pure (((splitOnDot p.2).getLastD ""))
        | none => .error "ref step not found in combined elements"

/-- getFlatColumnsFor: recursively expand a column or element into flat
columns, one per scalar leaf; structured elements recurse over their child
elements, managed associations over their foreign keys.  The empty string
models an absent baseName / columnAlias / tableAlias (all JS call sites pass
null, undefined or a nonempty string, and the empty string is falsy like
null).  The wildcard replacement branch (only reachable with a nonempty
replace list, which no modelled call site produces) is out of the modelled
fragment. -/
def getFlatColumnsFor (env : Env) : Nat → FCol → String → String → String →
    List String → List Repl → List Repl → Except String (List FlatCol)
  | 0, _, _, _, _, _, _, _ => .error "fuel exhausted in getFlatColumnsFor"
  | Nat.succ fuel, col, baseName0, columnAlias0, tableAlias, csnPath0, exclude, replace => do
    let element0 := match col.refLinks with
      | some ls => ((ls.getLast?).map RefLink.definition).getD col.element
      | none => col.element
    if element0.onCond.isSome then pure []
    else if element0.virt then pure []
    else do
      let (element, baseName, columnAlias) ←
        if !col.isJoinRelevant && col.flatName ≠ "" then
          pure (element0, col.flatName, columnAlias0)
        else if col.isJoinRelevant then do
          let links := col.refLinks.getD []
          let leaf := links.getLast?.getD default
          match links.reverse.find? (fun l => l.definition.isAssociation) with
          | none => .error "join relevant column without association link"
          | some leafAssoc =>
            match leafAssoc.definition.foreignKeys with
            | some fkNames =>
              if fkNames.contains leaf.alias' then
                pure (leafAssoc.definition, leafAssoc.definition.fullName,
                      String.intercalate "_" ((col.ref.dropLast).map Step.id))
              else pure (element0, leaf.definition.fullName, columnAlias0)
            | none => pure (element0, leaf.definition.fullName, columnAlias0)
        else
          pure (element0,
                if baseName0 ≠ "" then baseName0 ++ "_" ++ element0.name else element0.fullName,
                columnAlias0)
      let leafAssoc : Option RefLink :=
        if col.isJoinRelevant then (col.refLinks.getD []).reverse.find? (fun l => l.definition.isAssociation)
        else none
      if (getReplacement element exclude).isSome then pure []
      else if (getReplacement element replace).isSome then
        .error "wildcard replacement branch not modelled"
      else do
        let csnPath := csnPath0 ++ [element.name]
        match element.fks with
        | some keys =>
          keys.foldlM (fun acc fk => do
            match getElementForRef env fk.ref (element.target.bind env.lookupDef) with
            | none => .error "foreign key element not found in association target"
            | some fkElement => do
              let fkBaseName :=
                if leafAssoc.isNone || ((leafAssoc.map RefLink.onlyFk).getD false) then
                  baseName ++ "_" ++ (fk.as.getD (fk.ref.getLastD ""))
                else fk.ref.getLastD ""
              let fkPath := csnPath ++ [fk.ref.getLastD ""]
              if !fkElement.elements.isEmpty then
                fkElement.elements.foldlM (fun acc2 p => do
                  let e := p.2
                  let al := if columnAlias ≠ "" then
                      columnAlias ++ "_" ++ (match fk.as with
                        | some a => a ++ "_" ++ e.name
                        | none => String.intercalate "_" fk.ref ++ "_" ++ e.name)
                    else ""
                  let sub ← getFlatColumnsFor env fuel (FCol.ofDef e) fkBaseName al tableAlias fkPath exclude replace
                  pure (acc2 ++ sub)) acc
              else if fkElement.isAssociation then do
                let sub ← getFlatColumnsFor env fuel (FCol.ofDef fkElement) baseName columnAlias tableAlias csnPath exclude replace
                pure (acc ++ sub)
              else
                let base : FlatCol :=
                  if columnAlias ≠ "" then
                    { path := [fkBaseName], as := columnAlias ++ "_" ++ String.intercalate "_" fk.ref,
                      csnPath := csnPath }
                  else { path := [fkBaseName], csnPath := csnPath }
                let withTA := if tableAlias ≠ "" then { base with path := tableAlias :: base.path } else base
                pure (acc ++ [withTA])) []
        | none =>
          if !element.elements.isEmpty then
            element.elements.foldlM (fun acc p => do
              let e := p.2
              let al := if columnAlias ≠ "" then columnAlias ++ "_" ++ e.name else ""
              let sub ← getFlatColumnsFor env fuel (FCol.ofDef e) baseName al tableAlias csnPath exclude replace
              pure (acc ++ sub)) []
          else
            let path := if tableAlias ≠ "" then [tableAlias, baseName] else [baseName]
            let columnAlias2 := match col.cast with
              | some _ => if columnAlias = "" then baseName else columnAlias
              | none => columnAlias
            pure [{ path := path, as := columnAlias2, cast := col.cast, sort := col.sort,
                    csnPath := csnPath }]

/-- One source-side / target-side reference tuple produced by
getParentKeyForeignKeyPairs. -/
structure PkFkPair where
  sourceSide : FlatCol
  targetSide : FlatCol
deriving DecidableEq, Repr

/-- getParentKeyForeignKeyPairs: for a managed association (or its backlink),
the flat foreign key / parent key tuples; flip reflects the where-exists
direction. -/
def getParentKeyForeignKeyPairs (env : Env) (fuel : Nat) (assoc : Def)
    (targetSideRefLink : RefLink) (flip : Bool) : Except String (List PkFkPair) := do
  let backlink := backlink0 env assoc
  let basis := backlink.getD assoc
  match basis.fks with
  | none => pure []
  | some keys =>
    let tgt := basis.target.bind env.lookupDef
    keys.foldlM (fun acc fk => do
      match getElementForRef env fk.ref tgt with
      | none => .error "foreign key element not found in target"
      | some elem => do
        let flatParentKeys ← getFlatColumnsFor env fuel (FCol.ofDef elem)
          (String.intercalate "_" fk.ref.dropLast) "" "" [] [] []
        let flatAssociationName := basis.fullName
        let flatForeignKeys ← getFlatColumnsFor env fuel (FCol.ofDef elem)
          flatAssociationName (fk.as.getD "") "" [] [] []
        let pairs ← (List.range flatForeignKeys.length).mapM (fun i => do
          match flatParentKeys.get? i, flatForeignKeys.get? i with
          | some pk, some fkc =>
            if flip then
              let refInTarget := if backlink.isSome then pk else fkc
              let refInSource := if backlink.isSome then fkc else pk
              pure ({ sourceSide := refInSource,
                      targetSide := { path := [targetSideRefLink.alias',
                        if refInTarget.as ≠ "" then flatAssociationName ++ "_" ++ refInTarget.as
                        else refInTarget.path.headD ""] } } : PkFkPair)
            else
              let refInTarget := if backlink.isSome then fkc else pk
              let refInSource := if backlink.isSome then pk else fkc
              pure ({ sourceSide := { path :=
                        [if refInSource.as ≠ "" then flatAssociationName ++ "_" ++ refInSource.as
                         else refInSource.path.headD ""] },
                      targetSide := { path := targetSideRefLink.alias' :: refInTarget.path } } : PkFkPair)
          | _, _ => .error "mismatched flat key expansion")
        pure (acc ++ pairs)) []

/-- flattenWithBaseName inside expandComparison: flatten a resolved ref
token, using the joined ref prefix as base name when the leaf element is
nested inside a structure. -/
def flattenWithBaseName (env : Env) (fuel : Nat) (path : List Step) (m : RefMeta) :
    Except String (List FlatCol) := do
  match m.refLinks with
  | none => .error "ref token without resolution links"
  | some ls => do
    let leaf := ls.getLast?.getD default
    let first := ls.headD default
    let bl := if path.length > 1 && first.definition.isAssociation then some first else none
    let tableAlias ← getQuerySourceName env
      { path := path, refLinks := ls, isJoinRelevant := m.isJoinRelevant } bl
    if !leaf.definition.parentIsEntity then
      getFlatColumnsFor env fuel (FCol.ofDef leaf.definition)
        (String.intercalate "_" (path.dropLast.map Step.jsString)) "" tableAlias [] [] []
    else
      getFlatColumnsFor env fuel (FCol.ofDef leaf.definition) "" "" tableAlias [] [] []

/-- The while loop of the structural branch of expandComparison: shift one
flat element from the left side, find and remove its counterpart on the
right side by csnPath suffix, and emit one comparison per matched pair,
connected by the boolean operator.  Returns the unmatched-path messages, the
emitted tokens and the leftover right side. -/
def structPairLoop (ops : List String) (boolOp : String) :
    List FlatCol → List FlatCol → List String → List Token →
    (List String × List Token × List FlatCol)
  | [], flatRhs, errs, result => (errs, result, flatRhs)
  | lhs :: rest, flatRhs, errs, result =>
    let lhsTail := lhs.csnPath.drop 1
    match flatRhs.findIdx? (fun rhs =>
      (List.range lhsTail.length).all (fun i => lhsTail.get? i == rhs.csnPath.get? (i + 1))) with
    | none =>
      structPairLoop ops boolOp rest flatRhs
        (errs ++ ["Path " ++ String.intercalate "." lhsTail ++ " not found"]) result
    | some idx =>
      let rhs := (flatRhs.get? idx).getD default
      let flatRhs2 := flatRhs.eraseIdx idx
      let result2 := result ++ [Token.tref (lhs.path.map Step.plain) {}]
        ++ ops.map Token.str ++ [rhs.toToken]
      let result3 := if rest.isEmpty then result2 else result2 ++ [Token.str boolOp]
      structPairLoop ops boolOp rest flatRhs2 errs result3

/-- Whether the two-token operator is one of the notEqOps (the JS comparison
also matches a one-token operator against a one-token entry because
undefined === undefined). -/
def opsIsNotEq (ops : List String) : Bool :=
  notEqOps.any (fun p => p.get? 0 == ops.get? 0 && p.get? 1 == ops.get? 1)

/-- expandComparison: expand a comparison whose left side is a structured
element or managed association, either against another structured operand
(matched leaf pairs) or against a literal value. -/
def expandComparison (env : Env) (fuel : Nat) (tok : Token) (ops : List String)
    (value : Token) : Except String (List Token) := do
  match tok with
  | .tref path m => do
    let flatRhs? ←
      match value with
      | .tref vpath vm =>
        if vm.refLinks.isSome then do
          let r ← flattenWithBaseName env fuel vpath vm
          pure (some r)
        else pure none
      | _ => pure none
    match flatRhs? with
    | some flatRhs => do
      let flatLhs ← flattenWithBaseName env fuel path m
      if flatRhs.length ≠ flatLhs.length then
        .error "the operands must have the same structure"
      else do
        let boolOp := if opsIsNotEq ops then "or" else "and"
        let (errs, result, leftoverRhs) := structPairLoop ops boolOp flatLhs flatRhs [] []
        if !leftoverRhs.isEmpty then
          .error ("cannot compare: " ++ String.intercalate ", " errs)
        else pure result
    | none => do
      let flatLhs ← flattenWithBaseName env fuel path m
      let valueIsNullLiteral := match value with
        | .tval Val.vnull => true
        | .str "null" => true
        | _ => false
      if flatLhs.length > 1 && !valueIsNullLiteral then
        .error "Cannot compare structure with value"
      else do
        let boolOp := if opsIsNotEq ops then "or" else "and"
        let groups := flatLhs.map (fun c => [c.toToken] ++ ops.map Token.str ++ [value])
        pure (List.intercalate [Token.str boolOp] groups)
  | _ => .error "expandComparison expects a ref token"

/-- JS truthiness of an optional token (undefined and the empty string are
falsy, objects and nonempty strings truthy). -/
def truthyTok : Option Token → Bool
  | some (.str s) => !s.isEmpty
  | some _ => true
  | none => false

/-- Joins the key-value comparison groups of the single-value infix filter
branch with the and keyword, as the forEach push chain does. -/
def joinWithAnd (groups : List (List Token)) : List Token :=
  List.intercalate [Token.str "and"] groups

/-- The key computation of the single-value infix filter branch: the flat
columns of the key elements of the base link target, excluding the backlink
element (object identity modelled by name within the target), each aliased
with the base link alias. -/
def nonBacklinkFlatKeys (env : Env) (fuel : Nat) (blv : RefLink) :
    Except String (List FlatCol) := do
  let d := (blv.definition.target.bind env.lookupDef).getD blv.definition
  let bk := backlink0 env blv.definition
  let keyElems := (d.entityKeys.filterMap (fun k => d.elem? k)).filter (fun v =>
    match bk with
    | some b => v.name != b.name
    | none => true)
  keyElems.foldlM (fun acc2 v => do
    let f ← getFlatColumnsFor env fuel (FCol.ofDef v) "" "" blv.alias' [] [] []
    pure (acc2 ++ f)) ([] : List FlatCol)

/-- The loop body of getTransformedTokenStream.  recur performs the nested
stream transformations (at strictly smaller fuel), fuelF drives the column
flattening, stream and bl are the walked stream and base link; the Nat
arguments are the remaining iteration budget and the current index i, and
acc is the transformedWhere array built so far.  The where-exists expansion
branch (token === exists, source lines 834 to 879) and subquery tokens are
outside the modelled fragment and reported as errors; every other branch of
the source loop is transcribed, including the splice-based rewriting of
empty IN lists relative to the input index. -/
def gttsGo (env : Env) (recur : List Token → Option RefLink → Except String (List Token))
    (fuelF : Nat) (stream : List Token) (bl : Option RefLink) :
    Nat → Nat → List Token → Except String (List Token)
  | 0, _, _ => .error "iteration budget exhausted in gttsGo"
  | Nat.succ rem, i, acc =>
    match stream.get? i with
    | none => pure acc
    | some tok =>
      match tok with
      | .str "exists" => .error "where-exists expansion in a token stream is not modelled"
      | .tlist ts =>
        if ts.isEmpty then
          let p2 := jsSlice stream ((i : Int) - 2) (i : Int)
          let firstPreceding := match p2.get? 0 with | some (.str s) => jsToLower s | _ => ""
          let secondPreceding := match p2.get? 1 with | some (.str s) => jsToLower s | _ => ""
          if firstPreceding == "not" then
            gttsGo env recur fuelF stream bl rem (i + 1)
              (jsSplice acc ((i : Int) - 2) 2 [.str "is", .str "not", .str "null"])
          else if secondPreceding == "in" then
            gttsGo env recur fuelF stream bl rem (i + 1)
              (jsSplice acc ((i : Int) - 1) 1 [.str "=", .tval Val.vnull])
          else
            gttsGo env recur fuelF stream bl rem (i + 1) (acc ++ [.tlist []])
        else do
          let sub ← recur ts none
          gttsGo env recur fuelF stream bl rem (i + 1) (acc ++ [.tlist sub])
      | _ =>
        -- single literal value as the whole infix filter stream
        if stream.length == 1
            && (match tok with | .tval v => v.truthy | _ => false)
            && bl.isSome then do
          match bl with
          | none => .error "unreachable"
          | some blv => do
            let flatKeys ← nonBacklinkFlatKeys env fuelF blv
            if flatKeys.length > 1 then
              .error "Filters can only be applied to managed associations which result in a single foreign key"
            else
              gttsGo env recur fuelF stream bl rem (i + 1)
                (acc ++ joinWithAnd (flatKeys.map (fun c => [c.toToken, Token.str "=", tok])))
        else if (match tok with | .tref _ m => m.param | _ => false) then
          gttsGo env recur fuelF stream bl rem (i + 1) (acc ++ [tok])
        else if (match tok with
                 | .tref p _ => (pseudoElem? ((p.headD (Step.plain "")).id)).isSome
                 | _ => false) then
          gttsGo env recur fuelF stream bl rem (i + 1) (acc ++ [tok])
        else
          let definition? : Option Def := match tok with
            | .tref _ m => ((m.refLinks.bind List.getLast?).map RefLink.definition)
            | _ => none
          let nextS? : Option String := match stream.get? (i + 1) with
            | some (.str s) => some s
            | _ => none
          let isFirstOp := match nextS? with
            | some s => allOps.any (fun op => op.headD "" == s)
            | none => false
          let defQualifies := match definition? with
            | some d => !d.elements.isEmpty || d.fks.isSome
            | none => false
          if isFirstOp && defQualifies then
            let nextS := nextS?.getD ""
            let (ops, rhs?, indexRhs) :=
              match stream.get? (i + 2) with
              | some (.str s2) =>
                if allOps.any (fun op => op.get? 1 == some s2) then
                  ([nextS, s2], stream.get? (i + 3), i + 3)
                else ([nextS], some (Token.str s2), i + 2)
              | other => ([nextS], other, i + 2)
            match rhs? with
            | none => .error "missing operand after comparison operator"
            | some rhs =>
              let rhsQualifies :=
                (match rhs with
                 | .tref _ vm => isAssocOrStruct (((vm.refLinks.bind List.getLast?).map RefLink.definition))
                 | _ => false)
                || (match rhs with | .tval _ => true | _ => false)
                || (match rhs with | .str "null" => true | _ => false)
              if rhsQualifies then
                if notSupportedOps.any (fun op => op.headD "" == nextS) then
                  .error ("The operator " ++ nextS ++ " is not supported for structure comparison")
                else do
                  let newTokens ← expandComparison env fuelF tok ops rhs
                  let needXpr := (decide (1 ≤ i) && truthyTok (stream.get? (i - 1)))
                    || truthyTok (stream.get? (indexRhs + 1))
                  gttsGo env recur fuelF stream bl rem (indexRhs + 1)
                    (acc ++ (if needXpr then [Token.txpr newTokens] else newTokens))
              else
                gttsGo env recur fuelF stream bl rem (i + 1) acc
          else do
            -- reject associations and structures appearing as plain values
            if bl.isNone && (match definition? with | some d => d.target.isSome | none => false) then
              .error "An association cannot be used as a value in an expression"
            else if isStructured definition? then
              .error "A structured element cannot be used as a value in an expression"
            else
              match tok with
              | .tref p m => do
                let tableAlias ← getQuerySourceName env
                  { path := p, refLinks := m.refLinks.getD [], isJoinRelevant := m.isJoinRelevant } bl
                let newRef :=
                  if bl.isNone && m.isJoinRelevant then
                    [tableAlias,
                     (((m.refLinks.getD []).getLast?.map (fun l => l.definition.fullName)).getD "")]
                  else [tableAlias, m.flatName.getD "undefined"]
                gttsGo env recur fuelF stream bl rem (i + 1)
                  (acc ++ [Token.tref (newRef.map Step.plain) m])
              | .tselect _ => .error "subqueries in token streams are not modelled"
              | .txpr ts => do
                let sub ← recur ts bl
                gttsGo env recur fuelF stream bl rem (i + 1) (acc ++ [Token.txpr sub])
              | .tfunc f args => do
                let args2 ← args.mapM (fun t =>
                  match t with
                  | .tval v =>
                    if !v.truthy then do
                      let r ← recur [t] bl
                      pure (r.headD t)
                    else pure t
                  | _ => do
                    let r ← recur [t] bl
                    pure (r.headD t))
                gttsGo env recur fuelF stream bl rem (i + 1) (acc ++ [Token.tfunc f args2])
              | _ => gttsGo env recur fuelF stream bl rem (i + 1) (acc ++ [tok])

/-- getTransformedTokenStream: walks a where or having token stream,
flattening refs, rewriting empty IN lists, expanding structural comparisons
and single-value infix filters.  The outer fuel bounds the nesting depth of
token streams. -/
def gtts (env : Env) : Nat → List Token → Option RefLink → Except String (List Token)
  | 0, _, _ => .error "fuel exhausted in gtts"
  | Nat.succ fuel, stream, bl =>
    gttsGo env (gtts env fuel) fuel stream bl (stream.length + 1) 0 []

/-- Modelled from the spec: the join tree operation addNextAvailableTableAlias
(the source file infer/join-tree.js is required but not under src/).  Per
spec section 4.4, addAlias(shortId) returns a unique alias derived from the
short id by a monotonic counter on collision.  The state is the list of
aliases already in use. -/
def getNextAvailableTableAlias (st : List String) (id : String) : String × List String :=
  if !st.contains id then (id, st ++ [id])
  else
    match (List.range (st.length + 1)).find? (fun n => !st.contains (id ++ toString (n + 2))) with
    | some n => (id ++ toString (n + 2), st ++ [id ++ toString (n + 2)])
    | none => (id, st ++ [id])

/-- getWhereExistsSubquery: builds SELECT 1 FROM target AS alias WHERE on
for one association step; for a managed association the on-condition pairs
foreign keys with parent keys (direction given by inWhere), and an infix
filter is transformed with the next link as base and appended under and.
Unmanaged on-conditions (the onCondFor branch) are outside the modelled
fragment. -/
def getWhereExistsSubquery (env : Env) (fuel : Nat) (current next : RefLink)
    (customWhere : Option (List Token)) (inWhere : Bool) : Except String SubSelect := do
  let fkSource := if inWhere then next.definition else current.definition
  let on0 ←
    if fkSource.fks.isSome then do
      let pkFkPairs ← getParentKeyForeignKeyPairs env fuel fkSource current inWhere
      pure (pkFkPairs.foldl (fun (acc : List Token) pr =>
        let src : FlatCol := { pr.sourceSide with path := next.alias' :: pr.sourceSide.path }
        (acc ++ (if acc.isEmpty then [] else [Token.str "and"]))
          ++ [src.toToken, Token.str "=", pr.targetSide.toToken]) [])
    else .error "unmanaged association on-conditions are not modelled"
  let on1 ←
    match customWhere with
    | some cw => do
      let filter ← gtts env fuel cw (some next)
      pure (on0 ++ [Token.str "and"]
        ++ (if hasLogicalOr filter then [Token.txpr filter] else filter))
    | none => pure on0
  pure (SubSelect.mk
    (localizedName env ((assocTarget env next.definition).getD next.definition))
    next.alias' [Token.tval (Val.vint 1)] on1)

/-- whereExistsSubqueries: the reduce that chains the collected subselects,
appending each subsequent subselect to the where clause of its predecessor
under and exists; the recursive formulation yields the same nested value as
the mutation-based JS reduce. -/
def whereExistsSubqueries : List SubSelect → Option SubSelect
  | [] => none
  | [s] => some s
  | s :: rest =>
    match whereExistsSubqueries rest with
    | some inner =>
      some (SubSelect.mk s.fromRef s.fromAs s.cols
        (s.whereTs ++ [Token.str "and", Token.str "exists", Token.tselect inner]))
    | none => some s

/-- A from clause that is a ref, together with its resolution links and the
optional explicit alias. -/
structure FromClause where
  ref : List Step
  refLinks : List RefLink
  as : Option String := none

/-- The rewritten from clause: a single-name ref plus an alias. -/
structure OutFrom where
  ref : List String
  as : String
deriving Repr

/-- The loop of _transformFrom over the reversed ref: each association step
with a successor yields one where-exists subselect; the successor link gets
a fresh table alias (reassigned in the links array before the subselect is
built), and a structured successor is skipped in favor of the next
association or entity link, with the index arithmetic of the source kept
as written. -/
def transformFromLoop (env : Env) (fuel : Nat) (refReverse : List Step) :
    Nat → Nat → List RefLink → List String → List SubSelect →
    Except String (List RefLink × List String × List SubSelect)
  | 0, _, _, _, _ => .error "iteration budget exhausted in transformFromLoop"
  | Nat.succ rem, i, links, st, subs =>
    match links.get? i with
    | none => pure (links, st, subs)
    | some stepLink =>
      match links.get? (i + 1) with
      | none => pure (links, st, subs)
      | some nextStepLink0 =>
        if stepLink.definition.target.isSome then do
          let whereF := (refReverse.get? (i + 1)).bind Step.filter
          let (nextIdx, nextStepLink) :=
            if isStructured (some nextStepLink0.definition) then
              let found := (links.drop (i + 2)).findIdx? (fun rl =>
                rl.definition.isAssociation || rl.definition.kind == "entity")
              let idx := match found with | some k => 2 + k | none => 1
              (idx, (links.get? idx).getD default)
            else (i + 1, nextStepLink0)
          let (sas, st2) := getNextAvailableTableAlias st
            ((splitOnDot nextStepLink.alias').getLastD "")
          let nextStepLink2 := { nextStepLink with alias' := sas }
          let links2 := links.set nextIdx nextStepLink2
          let sub ← getWhereExistsSubquery env fuel stepLink nextStepLink2 whereF false
          transformFromLoop env fuel refReverse rem (i + 1) links2 st2 (subs ++ [sub])
        else transformFromLoop env fuel refReverse rem (i + 1) links st subs

/-- _transformFrom: rewrites a ref-shaped from clause.  Association steps
become a chain of where-exists subselects collected in reverse step order;
the output from is reduced to a single ref (the localized target entity of
the last link) with the alias of the last link (or the inferred default
alias when no subselect was built), and the leaf infix filter plus the
already transformed where clause are appended to the resulting where
conditions. -/
def transformFrom (env : Env) (fuel : Nat) (st : List String) (frm : FromClause)
    (existingWhere : List Token) : Except String (List Token × OutFrom × List String) := do
  let asInit := frm.as.getD
    ((splitOnDot (((frm.refLinks.getLast?).map (fun l => l.definition.name)).getD "")).getLastD "")
  let refReverse := frm.ref.reverse
  let linksRev := frm.refLinks.reverse
  let (linksFinal, st2, subs) ←
    transformFromLoop env fuel refReverse (refReverse.length + 1) 0 linksRev st []
  let fc0 : List (List Token) ←
    match (refReverse.headD (Step.plain "")).filter with
    | some w => do
      let f ← gtts env fuel w (some (linksFinal.headD default))
      pure [f]
    | none => pure []
  let filterConditions := fc0 ++ (if existingWhere.isEmpty then [] else [existingWhere])
  match whereExistsSubqueries subs with
  | some chain =>
    let lastLink := (linksFinal.headD default)
    let transformedWhere := [Token.str "exists", Token.tselect chain]
      ++ filterConditions.foldl (fun acc f =>
          acc ++ [Token.str "and"]
            ++ (if filterConditions.length > 1 then [Token.txpr f]
                else if f.length > 3 then [Token.txpr f]
                else f)) []
    pure (transformedWhere,
      { ref := [localizedName env lastLink.target], as := lastLink.alias' }, st2)
  | none =>
    let revConds := filterConditions.reverse
    let transformedWhere := ((revConds.zip (List.range revConds.length)).foldl (fun acc p =>
      let f := p.1
      let acc2 := acc ++ (if filterConditions.length > 1 then [Token.txpr f] else f)
      if p.2 + 1 < revConds.length then acc2 ++ [Token.str "and"] else acc2) [])
    let lastLink := (linksFinal.headD default)
    pure (transformedWhere,
      { ref := [localizedName env lastLink.target], as := asInit }, st2)

/-- An input column of the SELECT list after inference: the enumerable
properties (ref, as, cast, val, xpr, func) plus the hidden inference
metadata (refLinks, flatName, isJoinRelevant).  Wildcards, expand, inline
and subquery columns are marked by flags; their rewriting is outside the
modelled fragment. -/
structure Column where
  ref : Option (List Step) := none
  refLinks : Option (List RefLink) := none
  flatName : Option String := none
  isJoinRelevant : Bool := false
  param : Bool := false
  as : Option String := none
  cast : Option String := none
  sort : Option String := none
  val : Option Val := none
  xprT : Option (List Token) := none
  funcName : Option String := none
  funcArgs : Option (List Token) := none
  expandFlag : Bool := false
  inlineFlag : Bool := false
  selectFlag : Bool := false
  star : Bool := false

/-- An output column of the rewritten SELECT list (the enumerable fields the
rewrite produces). -/
structure OColumn where
  ref : Option (List Step) := none
  as : Option String := none
  cast : Option String := none
  sort : Option String := none
  val : Option Val := none
  xprT : Option (List Token) := none
  funcName : Option String := none
  funcArgs : Option (List Token) := none
  param : Bool := false

/-- A flat column as an output column. -/
def FlatCol.toOColumn (f : FlatCol) : OColumn :=
  { ref := some (f.path.map Step.plain),
    as := if f.as = "" then none else some f.as,
    cast := f.cast, sort := f.sort }

/-- The passthrough of a column (the object spread the pseudo and parameter
branches perform). -/
def Column.passthrough (c : Column) : OColumn :=
  { ref := c.ref, as := c.as, cast := c.cast, sort := c.sort, val := c.val,
    xprT := c.xprT, funcName := c.funcName, funcArgs := c.funcArgs, param := c.param }

/-- The deduplication key of an output column: its alias, else the last step
of its ref. -/
def OColumn.dedupKey (c : OColumn) : Option String :=
  match c.as with
  | some a => some a
  | none => c.ref.bind (fun r => (r.getLast?).map Step.jsString)

/-- getTransformedColumns: rewrites each column of the SELECT list; plain
refs are flattened via getFlatColumnsFor (with deduplication by alias
against columns already produced), pseudo and parameter refs pass through,
xpr and func columns have their token streams rewritten, vals are copied,
and the empty-projection error is raised when only virtual columns were
given.  Wildcard, expand, inline and subquery columns (and the element
back-references the source attaches as hidden metadata) are outside the
modelled fragment. -/
def getTransformedColumns (env : Env) (fuel : Nat) (cols : List Column) :
    Except String (List OColumn) := do
  let result ← cols.foldlM (fun (acc : List OColumn) col => do
    if col.expandFlag then .error "expand columns are not modelled"
    else if col.inlineFlag then .error "inline columns are not modelled"
    else if col.star then .error "wildcard expansion is not modelled"
    else
      match col.ref with
      | some path =>
        if (pseudoElem? ((path.headD (Step.plain "")).id)).isSome then
          pure (acc ++ [col.passthrough])
        else if col.param then
          pure (acc ++ [col.passthrough])
        else do
          let tableAliasName ← getQuerySourceName env
            { path := path, refLinks := col.refLinks.getD [],
              isJoinRelevant := col.isJoinRelevant } none
          let leaf := (((col.refLinks.getD []).getLast?).map RefLink.definition).getD default
          if leaf.virt then pure acc
          else do
            let headIsTA := match path.headD (Step.plain "") with
              | Step.plain s => s == tableAliasName
              | _ => false
            let baseName :=
              if path.length ≥ 2 then
                String.intercalate "_" (((if headIsTA then path.drop 1 else path).dropLast).map Step.jsString)
              else ""
            let columnAlias0 := match col.as with
              | some a => some a
              | none => if col.isJoinRelevant then col.flatName else none
            let refNavigation :=
              String.intercalate "_" ((if headIsTA then path.drop 1 else path).map Step.jsString)
            let columnAlias := match columnAlias0 with
              | some a => some a
              | none => match col.flatName with
                | some fn => if fn ≠ refNavigation then some refNavigation else none
                | none => none
            if (col.refLinks.getD []).any (fun l =>
                ((l.definition.target.bind env.lookupDef).map Def.persistenceSkip).getD false) then
              pure acc
            else do
              let flatColumns ← getFlatColumnsFor env fuel
                { element := leaf, refLinks := col.refLinks,
                  flatName := col.flatName.getD "", isJoinRelevant := col.isJoinRelevant,
                  ref := path, cast := col.cast, sort := col.sort }
                baseName (columnAlias.getD "") tableAliasName [] [] []
              pure (flatColumns.foldl (fun acc2 fc =>
                let oc := fc.toOColumn
                if oc.as.isSome && acc2.any (fun ins => ins.as == oc.as) then acc2
                else acc2 ++ [oc]) acc)
      | none => do
        let transformedColumn ←
          if col.selectFlag then .error "subquery columns are not modelled"
          else match col.xprT with
          | some x => do
            let tx ← gtts env fuel x none
            pure ({ xprT := some tx } : OColumn)
          | none =>
            match col.funcName with
            | some f => do
              let targs ← match col.funcArgs with
                | some args => do
                  let t ← gtts env fuel args none
                  pure (some t)
                | none => pure none
              pure ({ funcName := some f, funcArgs := targs, as := some f } : OColumn)
            | none => pure col.passthrough
        let transformedColumn := match col.as with
          | some a => { transformedColumn with as := some a }
          | none => transformedColumn
        match acc.findIdx? (fun t => t.dedupKey == transformedColumn.as) with
        | some idx => pure (acc.set idx transformedColumn)
        | none => pure (acc ++ [transformedColumn])) []
  if result.isEmpty && !cols.isEmpty then
    if cols.any (fun c =>
        ((((c.refLinks.getD []).getLast?).map (fun l => l.definition.typeName == "cds.Composition")).getD false)) then
      pure result
    else .error "Queries must have at least one non-virtual column"
  else pure result

/-- The modelled SELECT fragment fed to the rewrite: a ref-shaped from
clause, explicit columns, an optional where clause and the localized flag;
queries whose join tree is non-initial (join materialization) are outside
the modelled fragment. -/
structure RSelect where
  frm : FromClause
  columns : List Column
  whereTs : Option (List Token) := none
  localizedQ : Bool := false
  joinTreeNonInitial : Bool := false

/-- The rewritten query of the modelled fragment: flat from, flat columns,
flat where (empty meaning absent). -/
structure OutQuery where
  frm : OutFrom
  columns : List OColumn
  whereTs : List Token

/-- cqn4sql on the modelled SELECT fragment: transform the where clause,
then the from clause (gluing the transformed where into the where-exists
conditions), then the columns. -/
def cqn4sql (env0 : Env) (fuel : Nat) (q : RSelect) : Except String OutQuery := do
  let env := { env0 with localizedQ := q.localizedQ }
  let tw ← match q.whereTs with
    | some w => gtts env fuel w none
    | none => pure []
  let (w2, f2, _st) ← transformFrom env fuel env.sources q.frm tw
  let cols ←
    if q.columns.isEmpty then .error "wildcard projection (getColumnsForWildcard) is not modelled"
    else getTransformedColumns env fuel q.columns
  if q.joinTreeNonInitial then .error "join materialization is not modelled"
  else pure { frm := f2, columns := cols, whereTs := w2 }

/-! ## The inference phase (second source file) -/

/-- A flat token inside an xpr or the args of a func column, as far as the
element inference walks it: a string, a ref or a value. -/
inductive XTok where
  | xstr : String → XTok
  | xref : (ref : List String) → (cast : Option String) → XTok
  | xval : Val → XTok

/-- An input column of the inference phase: the JS column object with its
enumerable properties; absent properties are none or false. -/
structure IColumn where
  star : Bool := false
  val : Option Val := none
  xprF : Bool := false
  xprToks : List XTok := []
  selectF : Bool := false
  funcName : Option String := none
  funcArgs : List XTok := []
  param : Bool := false
  ref : Option (List String) := none
  as : Option String := none
  cast : Option String := none

/-- JS truthiness of an optional string property. -/
def strTruthy : Option String → Bool
  | some s => !s.isEmpty
  | none => false

/-- The alias chain col.as or col.func or col.val of inferQueryElements:
none models the chain evaluating to undefined (which raises ExpectingAlias),
otherwise the resulting object key. -/
def aliasChain (c : IColumn) : Option String :=
  if strTruthy c.as then c.as
  else if strTruthy c.funcName then c.funcName
  else c.val.map Val.keyString

/-- A cds scalar type definition as the cdsTypes table provides it. -/
def cdsTypeDef (t : String) : Def :=
  Def.mk t "" [] none [] none none false false t true none none t false false

/-- getCdsTypeForVal: the cds type inferred from a literal value (null falls
through to the default empty object); an integer outside the safe range
(Number.isSafeInteger) infers cds.Decimal. -/
def getCdsTypeForVal : Val → Def
  | .vstr _ => cdsTypeDef "cds.String"
  | .vbool _ => cdsTypeDef "cds.Boolean"
  | .vint i => if i.natAbs ≤ 2 ^ 53 - 1 then cdsTypeDef "cds.Integer"
               else cdsTypeDef "cds.Decimal"
  | .vnull => default

/-- getElementForCast: the element carrying the cast type (the cdsTypes
mapping is modelled by cdsTypeDef); without a cast the empty object. -/
def getElementForCast (cast : Option String) : Def :=
  match cast with
  | some c => cdsTypeDef c
  | none => default

/-- The model environment of the inference phase. -/
structure IEnv where
  defs : List (String × Def)

/-- The name scope of one inferred query: the sources (alias to definition)
and the combined elements (element name to the list of contributing
(alias, source) pairs). -/
structure IScope where
  sources : List (String × Def)
  combined : List (String × List (String × Def))

/-- The synthetic container holding the pseudo definitions (the pseudos
module object). -/
def pseudosDef : Def :=
  Def.mk "pseudos" "" pseudos none [] none none false false "pseudos" true none none "" false false

/-- A resolution link of the inference phase. -/
structure IRefLink where
  definition : Def
  target : Def
  alias' : String := ""

instance : Inhabited IRefLink := ⟨⟨default, default, ""⟩⟩

/-- The state of the ref walk of inferQueryElement. -/
structure IWalk where
  links : List IRefLink := []
  nameSegments : List String := []
  skipStack : List String := []
  pseudoPath : Bool := false
  isPersisted : Bool := true

/-- One later step (index i greater than 0) of the inferQueryElement walk:
resolve the step in the elements of the predecessor (or of its target),
with the pseudo fallback for paths rooted in the $user pseudo, the $dummy
escape, and the renamed-foreign-key name bookkeeping. -/
def inferStep (env : IEnv) (ref : List String) (firstStepIsSelf : Bool)
    (i : Nat) (id : String) (w : IWalk) : Except String IWalk := do
  let prev := w.links.getLastD default
  let prevDef := prev.definition
  let elements := if !prevDef.elements.isEmpty then prevDef.elements
    else (((prevDef.target.bind (fun t => (env.defs.find? (fun p => p.1 == t)))).map
      (fun p => p.2.elements)).getD [])
  let w2 ←
    match (elements.find? (fun p => p.1 == id)).map Prod.snd with
    | some e => pure { w with links := w.links ++ [({ definition := e, target := prev.target } : IRefLink)] }
    | none =>
      if firstStepIsSelf then
        .error (id ++ " not found in the columns list of query")
      else if ref.headD "" == "$user" && w.pseudoPath then
        pure { w with links := w.links ++ [({ definition := default, target := prev.target } : IRefLink)] }
      else if id == "$dummy" then
        pure { w with links := w.links ++ [({ definition := default, target := prev.target } : IRefLink)] }
      else .error (id ++ " not found in " ++ prevDef.name)
  let fkres : Option String × List String :=
    match prevDef.fks with
    | some keys =>
      match keys.find? (fun k =>
        (List.range k.ref.length).all (fun j => ref.get? (i + j) == k.ref.get? j)) with
      | some k => (k.as, w.skipStack ++ k.ref.drop 1)
      | none => (none, w.skipStack)
    | none => (none, w.skipStack)
  let (fkAlias, skip2) := fkres
  match fkAlias with
  | some a => pure { w2 with nameSegments := w2.nameSegments ++ [a], skipStack := skip2 }
  | none =>
    if skip2.headD "" == id && !skip2.isEmpty then
      pure { w2 with skipStack := skip2.drop 1 }
    else pure { w2 with nameSegments := w2.nameSegments ++ [id], skipStack := skip2 }

/-- The first step (index 0) of the inferQueryElement walk: pseudo roots,
table aliases, $self, and the combined elements with the ambiguity check. -/
def inferFirstStep (scope : IScope) (queryElements : List (String × Def))
    (ref : List String) (id : String) : Except String IWalk := do
  match pseudoElem? id with
  | some p =>
    pure { links := [{ definition := p, target := pseudosDef }],
           nameSegments := [id], pseudoPath := true }
  | none =>
    let firstStepIsTableAlias := ref.length > 1 && (scope.sources.any (fun p => p.1 == id))
    let firstStepIsSelf := !firstStepIsTableAlias && ref.length > 1
      && (id == "$self" || id == "$projection")
    if firstStepIsTableAlias then
      let src := ((scope.sources.find? (fun p => p.1 == id)).map Prod.snd).getD default
      pure { links := [{ definition := src, target := src }] }
    else if firstStepIsSelf then
      let qdef := Def.mk "" "" queryElements none [] none none false false "" true none none "" false false
      pure { links := [{ definition := qdef, target := qdef }] }
    else
      match (scope.combined.find? (fun p => p.1 == id)).map Prod.snd with
      | some entries =>
        if entries.length > 1 then
          .error ("ambiguous reference to " ++ id)
        else
          let (_, ta) := entries.headD ("", default)
          let d := ((ta.elements.find? (fun p => p.1 == id)).map Prod.snd).getD default
          pure { links := [{ definition := d, target := ta }], nameSegments := [id] }
      | none => .error (id ++ " not found in the elements of the query sources")

/-- The walk of inferQueryElement over all ref steps, producing the links,
the name segments and the persistence flag.  Infix filters on steps, expand
and inline and the join tree merge are outside the modelled fragment of the
inference phase. -/
def inferWalk (env : IEnv) (scope : IScope) (queryElements : List (String × Def))
    (ref : List String) (colAs : Option String) : Except String IWalk := do
  match ref with
  | [] => .error "empty ref"
  | id0 :: rest => do
    let w0 ← inferFirstStep scope queryElements ref id0
    let firstStepIsTableAlias := ref.length > 1 && (scope.sources.any (fun p => p.1 == id0))
    let firstStepIsSelf := !firstStepIsTableAlias && ref.length > 1
      && (id0 == "$self" || id0 == "$projection")
    let w0 := setStepAlias w0 0 ref colAs
    let wN ← (rest.zip (List.range rest.length)).foldlM (fun w p => do
      let (id, j) := p
      let w2 ← inferStep env ref firstStepIsSelf (j + 1) id w
      let w3 := setStepAlias w2 (j + 1) ref colAs
      let w4 := markPersistence env w3 (j + 1)
      pure w4) (markPersistence env w0 0)
    pure wN
where
  -- alias assignment of step i: the column alias at the last step, else the short id
  setStepAlias (w : IWalk) (i : Nat) (ref : List String) (colAs : Option String) : IWalk :=
    let isLast := (ref.get? (i + 1)).isNone
    let id := (ref.get? i).getD ""
    let a := match colAs with
      | some ca => if isLast && !ca.isEmpty then ca else ((splitOnDot id).getLastD "")
      | none => ((splitOnDot id).getLastD "")
    let old := (w.links.get? i).getD default
    { w with links := w.links.set i { old with alias' := a } }
  -- the persistence-skip tracking of step i
  markPersistence (env : IEnv) (w : IWalk) (i : Nat) : IWalk :=
    let d := ((w.links.get? i).getD default).definition
    let skip := ((d.target.bind (fun t => (env.defs.find? (fun p => p.1 == t)))).map
      (fun p => p.2.persistenceSkip)).getD false
    if skip then { w with isPersisted := false } else w

/-- inferQueryElement for a ref column: walks the ref and, when insert is
set, inserts the inferred element into the query elements (the $user root
shortcut makes the element of the single-step $user ref the id child of the
$user pseudo definition); returns the updated elements, the links and the
inferred element. -/
def inferQueryElement (env : IEnv) (scope : IScope) (queryElements : List (String × Def))
    (col : IColumn) (insert : Bool) :
    Except String (List (String × Def) × List IRefLink × Def) := do
  match col.ref with
  | none => pure (queryElements, [], default)
  | some ref => do
    let w ← inferWalk env scope queryElements ref col.as
    let id0 := ref.headD ""
    let lastLink := w.links.getLastD default
    let flatName := String.intercalate "_" w.nameSegments
    let leafArt :=
      if ref.length == 1 && id0 == "$user" then
        (lastLink.definition.elem? "id").getD default
      else lastLink.definition
    if col.cast.isSome then
      let e := getElementForCast col.cast
      if insert then
        pure (queryElements ++ [((col.as.getD flatName), e)], w.links, e)
      else pure (queryElements, w.links, e)
    else if insert then do
      let firstStepIsTableAlias := ref.length > 1 && (scope.sources.any (fun p => p.1 == id0))
      let firstStepIsSelf := !firstStepIsTableAlias && ref.length > 1
        && (id0 == "$self" || id0 == "$projection")
      let elementName := match col.as with
        | some a => a
        | none =>
          let refNavigation := String.intercalate "_"
            (if firstStepIsSelf || firstStepIsTableAlias then ref.drop 1 else ref)
          if refNavigation ≠ flatName then refNavigation else flatName
      if queryElements.any (fun p => p.1 == elementName) then
        .error ("Duplicate definition of element " ++ elementName)
      else pure (queryElements ++ [(elementName, leafArt)], w.links, leafArt)
    else pure (queryElements, w.links, leafArt)

/-- The element attached onto a ref column by the second pass of
inferQueryElements: the cast element for cast columns, the query element
under col.as or $user for the single-step $user shortcut, and the leaf
definition otherwise. -/
def elementOnRefColumn (queryElements : List (String × Def)) (col : IColumn)
    (links : List IRefLink) (leaf : Def) : Def :=
  if col.cast.isSome then getElementForCast col.cast
  else match col.ref with
    | some [r0] =>
      if r0 == "$user" then
        (((queryElements.find? (fun p => p.1 == (col.as.getD "$user"))).map Prod.snd).getD default)
      else ((links.getLast?).map (fun l => l.definition)).getD leaf
    | _ => ((links.getLast?).map (fun l => l.definition)).getD leaf

/-- getElementForXprOrSubquery, restricted to the modelled flat xpr tokens:
walks the tokens (string tokens are ignored by inferQueryElement; refs are
resolved without insertion) and takes the element from the cast of the
column or of the first token. -/
def getElementForXprOrSubquery (env : IEnv) (scope : IScope)
    (queryElements : List (String × Def)) (col : IColumn) : Except String Def := do
  let _ ← col.xprToks.foldlM (fun (_ : Unit) t =>
    match t with
    | XTok.xref r _ => do
      let _ ← inferQueryElement env scope queryElements { ref := some r } false
      pure ()
    | _ => pure ()) ()
  match col.cast with
  | some c => pure (getElementForCast (some c))
  | none =>
    match col.xprToks.head? with
    | some (XTok.xref _ (some c)) => pure (getElementForCast (some c))
    | _ => pure default

/-- The first pass of inferQueryElements over the columns: expression,
subquery, function, parameter and value columns are named by the chain
col.as or col.func or col.val (raising ExpectingAlias when the chain is
undefined and DuplicateElement on a name clash); ref columns are collected
for the second pass; a wildcard sets the wildcard flag. -/
def inferColumnsFirstPass (env : IEnv) (scope : IScope) (cols : List IColumn) :
    Except String (List (String × Def) × List IColumn × Bool) := do
  cols.foldlM (fun acc col => do
    let (queryElements, refs, wildcard) := acc
    if col.star then pure (queryElements, refs, true)
    else if col.val.isSome || col.xprF || col.selectF || col.funcName.isSome || col.param then do
      match aliasChain col with
      | none => .error "Expecting expression to have an alias name"
      | some asKey =>
        if queryElements.any (fun p => p.1 == asKey) then
          .error ("Duplicate definition of element " ++ asKey)
        else do
          let e ←
            if col.xprF || col.selectF then
              getElementForXprOrSubquery env scope queryElements col
            else if col.funcName.isSome then do
              let _ ← col.funcArgs.foldlM (fun (_ : Unit) t =>
                match t with
                | XTok.xref r _ => do
                  let _ ← inferQueryElement env scope queryElements { ref := some r } false
                  pure ()
                | _ => pure ()) ()
              pure (getElementForCast col.cast)
            else
              pure (if col.cast.isSome then getElementForCast col.cast
                    else getCdsTypeForVal (col.val.getD Val.vnull))
          pure (queryElements ++ [(asKey, e)], refs, wildcard)
    else if col.ref.isSome then pure (queryElements, refs ++ [col], wildcard)
    else .error "Not supported column shape") ([], [], false)

/-- inferElementsFromWildCard: with no explicit elements and a single source
the source elements are taken as a whole; otherwise each unambiguous
combined element not excluded and not yet present is added, and ambiguous
names raise the wildcard ambiguity error. -/
def inferElementsFromWildCard (scope : IScope) (queryElements : List (String × Def))
    (excluding : List String) : Except String (List (String × Def)) := do
  if queryElements.isEmpty && scope.sources.length == 1 then
    pure (((scope.sources.head?).map (fun p => p.2.elements)).getD [])
  else do
    let ambiguous := scope.combined.filter (fun p => p.2.length > 1)
    let qe2 := scope.combined.foldl (fun qe p =>
      if p.2.length > 1 then qe
      else if excluding.contains p.1 || qe.any (fun q => q.1 == p.1) then qe
      else
        let ta := (p.2.headD ("", default)).2
        qe ++ [(p.1, ((ta.elem? p.1).getD default))]) queryElements
    if !ambiguous.isEmpty then
      .error ("Ambiguous wildcard elements: "
        ++ String.intercalate ", " (ambiguous.map Prod.fst))
    else pure qe2

/-- inferQueryElements: first pass over the columns, second pass resolving
the collected ref columns with insertion, then wildcard expansion; when the
query has no columns at all the wildcard inference runs directly. -/
def inferQueryElements (env : IEnv) (scope : IScope) (columns : Option (List IColumn))
    (excluding : List String) : Except String (List (String × Def)) := do
  match columns with
  | none => inferElementsFromWildCard scope [] excluding
  | some cols => do
    let (qe1, refs, wildcard) ← inferColumnsFirstPass env scope cols
    let qe2 ← refs.foldlM (fun qe col => do
      let (qe2, _, _) ← inferQueryElement env scope qe col true
      pure qe2) qe1
    if wildcard then inferElementsFromWildCard scope qe2 excluding
    else pure qe2

/-- The modelled input query of the inference phase: the SET flag (union
queries), a single-name from and the SELECT columns. -/
structure IQuery where
  isSet : Bool := false
  fromName : String := ""
  columns : Option (List IColumn) := none
  excluding : List String := []

/-- The outcome of the inference phase: the resolved target and the ordered
query elements. -/
structure InferResult where
  target : Def
  elements : List (String × Def)

/-- infer: reject union queries, resolve the from name against the model,
build the scope (sources and combined elements) and infer the query
elements. -/
def infer (env : IEnv) (q : IQuery) : Except String InferResult := do
  if q.isSet then .error "UNION based queries are not supported"
  else do
    let target ←
      match (env.defs.find? (fun p => p.1 == q.fromName)).map Prod.snd with
      | some t => pure t
      | none => .error (q.fromName ++ " not found in the definitions of your model")
    if target.kind ≠ "entity" && !target.isAssociation then
      .error "Query source must be a an entity or an association"
    else do
      let alias0 := ((splitOnDot q.fromName).getLastD "")
      let scope : IScope :=
        { sources := [(alias0, target)],
          combined := target.elements.map (fun p => (p.1, [(alias0, target)])) }
      let elements ← inferQueryElements env scope q.columns q.excluding
      pure { target := target, elements := elements }

/-! ## Output shape discriminators used by the theorems -/

/-- Whether a token stream contains an empty list operand. -/
def hasEmptyList (ts : List Token) : Bool :=
  ts.any (fun t => match t with | .tlist [] => true | _ => false)

/-! ## Concrete model fixtures for witnesses and counterexamples -/

/-- A two-leaf structured element struc of the fixture entity. -/
def strucTwo : Def :=
  mkStruct "struc" [("x", mkScalarIn "x" "struc_x"), ("y", mkScalarIn "y" "struc_y")]

/-- A one-leaf structured element one of the fixture entity. -/
def strucOne : Def := mkStruct "one" [("x", mkScalarIn "x" "one_x")]

/-- The fixture Authors entity. -/
def authorsEnt : Def :=
  mkEntity "Authors" [("ID", mkScalar "ID"), ("name", mkScalar "name")] ["ID"]

/-- The fixture managed to-one association Books.author. -/
def authorAsc : Def := mkAssoc "author" "Authors" [{ ref := ["ID"] }] "Books"

/-- The fixture Books entity. -/
def booksEnt : Def :=
  mkEntity "Books"
    [("ID", mkScalar "ID"), ("title", mkScalar "title"), ("author", authorAsc),
     ("struc", strucTwo), ("one", strucOne)] ["ID"]

/-- The fixture environment of a SELECT from Books. -/
def fixEnv : Env :=
  { defs := [("Books", booksEnt), ("Authors", authorsEnt)],
    combined := [("ID", "Books"), ("title", "Books"), ("author", "Books"),
                 ("struc", "Books"), ("one", "Books")],
    sources := ["Books"] }

/-- The resolution link of the Books query source. -/
def booksLinkFix : RefLink := { definition := booksEnt, target := booksEnt, alias' := "Books" }

/-- The resolution link of the author association. -/
def authorLinkFix : RefLink := { definition := authorAsc, target := authorsEnt, alias' := "author" }

/-- The resolved title ref token of the fixture query. -/
def titleLinkFix : RefLink := { definition := mkScalar "title", target := booksEnt, alias' := "title" }

/-- The resolved ref token for the one-leaf structure. -/
def oneTokFix : Token :=
  .tref [.plain "one"]
    { refLinks := some [{ definition := strucOne, target := booksEnt, alias' := "one" }] }

/-- The resolved ref token for the two-leaf structure. -/
def strucMetaFix : RefMeta :=
  { refLinks := some [{ definition := strucTwo, target := booksEnt, alias' := "struc" }] }

/-- The fixture query: select title from Books where the user locale equals
a literal. -/
def qFix : RSelect :=
  { frm := { ref := [.plain "Books"], refLinks := [booksLinkFix] },
    columns := [{ ref := some [.plain "title"], refLinks := some [titleLinkFix],
                  flatName := some "title" }],
    whereTs := some [Token.tref [.plain "$user", .plain "locale"] {}, Token.str "=",
                     Token.tval (Val.vstr "de")] }

/-- The expansion shape the structural-comparison claim describes: one
comparison (a ref, the operator tokens, a right operand) per matched leaf
pair, consecutive comparisons joined by the connective. -/
inductive CompChain (conn : String) (ops : List String) : List Token → Nat → Prop where
  | single (lref : List Step) (lm : RefMeta) (rhs : Token) :
      CompChain conn ops ([Token.tref lref lm] ++ ops.map Token.str ++ [rhs]) 1
  | cons (lref : List Step) (lm : RefMeta) (rhs : Token) (rest : List Token) (n : Nat) :
      CompChain conn ops rest n →
      CompChain conn ops (([Token.tref lref lm] ++ ops.map Token.str ++ [rhs])
        ++ [Token.str conn] ++ rest) (n + 1)

/-- The input fragment of the reference-closure claim, closed under
nesting: literal values, non-exists keyword strings, parameter or
pseudo-rooted refs, resolved non-join-relevant scalar refs (with the raw
head equal to the declared alias when the first link is an entity), and
lists, xprs and function calls over the same fragment; the fuel bounds the
nesting depth.  Subqueries are outside the fragment. -/
def c2Tok (a : String) : Nat → Token → Bool
  | 0, _ => false
  | Nat.succ _, .tval _ => true
  | Nat.succ _, .str s => !(s == "exists")
  | Nat.succ _, .tref p m =>
      (pseudoElem? ((p.headD (Step.plain "")).id)).isSome
      || m.param
      || (!m.isJoinRelevant
          && (match ((m.refLinks.bind List.getLast?).map RefLink.definition) with
              | some d => d.elements.isEmpty && d.fks.isNone && d.target.isNone
              | none => false)
          && (!((((m.refLinks.getD []).headD default).definition.kind == "entity"))
              || ((p.headD (Step.plain "")).id == a)))
  | Nat.succ f, .tlist ts => ts.all (c2Tok a f)
  | Nat.succ f, .txpr ts => ts.all (c2Tok a f)
  | Nat.succ f, .tfunc _ args => args.all (c2Tok a f)
  | Nat.succ _, .tselect _ => false

/-- Reference closure of an output token with the
pseudo/parameter-passthrough exception, closed under nesting: every ref
either is pseudo-rooted or a parameter (passed through verbatim) or has
exactly two steps with its head among the from aliases. -/
def outClosedF (A : List String) : Nat → Token → Bool
  | 0, _ => false
  | Nat.succ _, .tval _ => true
  | Nat.succ _, .str _ => true
  | Nat.succ _, .tref r m =>
      (pseudoElem? ((r.headD (Step.plain "")).id)).isSome
      || m.param
      || (r.length == 2 && A.contains ((r.headD (Step.plain "")).id))
  | Nat.succ f, .tlist ts => ts.all (outClosedF A f)
  | Nat.succ f, .txpr ts => ts.all (outClosedF A f)
  | Nat.succ f, .tfunc _ args => args.all (outClosedF A f)
  | Nat.succ _, .tselect _ => false

/-- The column fragment of the reference-closure claim: no wildcard,
expand, inline or subquery columns; ref columns (structured ones included)
are not join relevant, carry no xpr or func parts and are addressed through
the combined-elements index or by the declared alias; expression and
function columns range over the token fragment. -/
def c2Col (a : String) (fuel : Nat) (c : Column) : Bool :=
  !c.expandFlag && !c.inlineFlag && !c.star && !c.selectFlag &&
  (match c.ref with
   | some path =>
      c.xprT.isNone && c.funcArgs.isNone &&
      ((pseudoElem? ((path.headD (Step.plain "")).id)).isSome
       || c.param
       || (!c.isJoinRelevant
           && (!((((c.refLinks.getD []).headD default).definition.kind == "entity"))
               || ((path.headD (Step.plain "")).id == a))))
   | none =>
      match c.xprT with
      | some x => x.all (c2Tok a fuel)
      | none =>
        match c.funcName with
        | some _ => (match c.funcArgs with
            | some args => args.all (c2Tok a fuel)
            | none => true)
        | none => c.funcArgs.isNone)

/-- Reference closure of an output column: its ref, xpr tokens and
function arguments all satisfy the closure-with-exception property. -/
def outColClosed (A : List String) (fuel : Nat) (c : OColumn) : Bool :=
  (match c.ref with
   | some r =>
      (pseudoElem? ((r.headD (Step.plain "")).id)).isSome || c.param
      || (r.length == 2 && A.contains ((r.headD (Step.plain "")).id))
   | none => true)
  && (match c.xprT with
      | some x => x.all (outClosedF A fuel)
      | none => true)
  && (match c.funcArgs with
      | some args => args.all (outClosedF A fuel)
      | none => true)

/-- The rewritten fixture query (the output of cqn4sql on qFix). -/
def oFixC2 : OutQuery :=
  { frm := { ref := ["Books"], as := "Books" },
    columns := [{ ref := some [Step.plain "Books", Step.plain "title"] }],
    whereTs := [Token.tref [Step.plain "$user", Step.plain "locale"] {},
                Token.str "=", Token.tval (Val.vstr "de")] }

/-- The plain reference-closure check of the claim (no exception): every
ref has length 1, or length 2 with its head among the from aliases. -/
def tokRefClosed (A : List String) : Token → Bool
  | .tref r _ => r.length == 1
      || (r.length == 2 && A.contains ((r.headD (Step.plain "")).id))
  | _ => true

/-- Extracting the lowercased keyword at position k of a token window, as the
firstPreceding and secondPreceding computations of the empty-IN-list rewrite
do: a non-string token (or a missing one) yields the empty string. -/
def lowerStrAt (l : List Token) (k : Nat) : String :=
  match l.get? k with
  | some (.str s) => jsToLower s
  | _ => ""

/-- The one-for-one image of a token under the stream walker (base link none):
literal values and non-exists strings are kept, parameter and pseudo-rooted
refs pass through verbatim, and a resolved non-join-relevant scalar ref is
replaced by the alias-rooted two-step flat ref.  Every other token (nested
lists, xprs, functions, subselects, structured or association refs) is
outside the index-aligned fragment and mapped to an error. -/
def alignedImg (env : Env) : Token → Except String Token
  | .tval v => .ok (.tval v)
  | .str s =>
    if s == "exists" then .error "exists is not in the aligned fragment"
    else .ok (.str s)
  | .tref p m =>
    if m.param then .ok (.tref p m)
    else if (pseudoElem? ((p.headD (Step.plain "")).id)).isSome then .ok (.tref p m)
    else if m.isJoinRelevant then .error "join-relevant ref outside the aligned fragment"
    else
      match ((m.refLinks.bind List.getLast?).map RefLink.definition) with
      | some d =>
        if d.elements.isEmpty && d.fks.isNone && d.target.isNone then do
          let a ← getQuerySourceName env
            { path := p, refLinks := m.refLinks.getD [],
              isJoinRelevant := m.isJoinRelevant } none
          pure (Token.tref ([a, m.flatName.getD "undefined"].map Step.plain) m)
        else .error "structured or association ref outside the aligned fragment"
      | none => .error "unresolved ref outside the aligned fragment"
  | .tlist _ => .error "nested token outside the aligned fragment"
  | .txpr _ => .error "nested token outside the aligned fragment"
  | .tfunc _ _ => .error "nested token outside the aligned fragment"
  | .tselect _ => .error "nested token outside the aligned fragment"

/-! # Theorems -/

/-- C7: for every input query that is a SET/union query, infer raises the
union error and produces no output query. -/
theorem c7_union_rejected (env : IEnv) (q : IQuery) (h : q.isSet = true) :
    infer env q = .error "UNION based queries are not supported" := by
  unfold infer
  simp [h]

/-- Witness for C7 at a concrete union query. -/
theorem c7_union_rejected_witness :
    infer { defs := [] } { isSet := true }
      = .error "UNION based queries are not supported" :=
  c7_union_rejected { defs := [] } { isSet := true } rfl

/-- C4 counterexample: an empty list that follows neither in nor not in
(here it follows not like) is not passed through as an empty list: the code
only inspects the token two positions earlier and rewrites the comparison
to is not null. -/
theorem c4_counterexample :
    gtts { defs := [] } 5
        [Token.tval (Val.vint 1), Token.str "not", Token.str "like", Token.tlist []] none
      = Except.ok [Token.tval (Val.vint 1), Token.str "is", Token.str "not", Token.str "null"]
    ∧ hasEmptyList
        [Token.tval (Val.vint 1), Token.str "is", Token.str "not", Token.str "null"] = false :=
  ⟨rfl, rfl⟩

/-- The length of the ok-result of a mapM over the Except monad equals the
length of the input list. -/
theorem exceptMapM_length {A B : Type} (g : A → Except String B) :
    ∀ (l : List A) (out : List B), l.mapM g = .ok out → out.length = l.length := by
  intro l
  induction l with
  | nil =>
    intro out h
    rw [show List.mapM g [] = pure [] from rfl] at h
    simp only [pure, Except.pure, Except.ok.injEq] at h
    subst h
    rfl
  | cons t ts ih =>
    intro out h
    rw [List.mapM_cons] at h
    rcases hg : g t with e | b
    · rw [hg] at h
      simp only [bind, Except.bind] at h
      exact Except.noConfusion h
    · rw [hg] at h
      simp only [bind, Except.bind] at h
      rcases hrest : List.mapM g ts with e2 | bs
      · rw [hrest] at h
        exact Except.noConfusion h
      · rw [hrest] at h
        simp only [pure, Except.pure, Except.ok.injEq] at h
        subst h
        simp [ih bs hrest]

/-- jsSlice with its let bindings unfolded. -/
theorem jsSlice_eq {α : Type} (l : List α) (start stop : Int) :
    jsSlice l start stop =
      (l.take ((if stop < 0 then max ((l.length : Int) + stop) 0
          else min stop (l.length : Int)).toNat)).drop
        ((if start < 0 then max ((l.length : Int) + start) 0
          else min start (l.length : Int)).toNat) := rfl

/-- jsSplice with its let bindings unfolded. -/
theorem jsSplice_eq {α : Type} (l : List α) (start : Int) (deleteCount : Nat)
    (items : List α) :
    jsSplice l start deleteCount items =
      l.take ((if start < 0 then max ((l.length : Int) + start) 0
          else min start (l.length : Int)).toNat) ++ items
        ++ l.drop (((if start < 0 then max ((l.length : Int) + start) 0
          else min start (l.length : Int)).toNat) + deleteCount) := rfl

/-- The two-token window before position pre.length is empty when fewer than
two tokens precede it: the JS slice bounds collapse. -/
theorem jsSlice_pre_short {α : Type} (pre rest : List α) (hr : rest ≠ [])
    (hL : pre.length < 2) :
    jsSlice (pre ++ rest) ((pre.length : Int) - 2) (pre.length : Int) = [] := by
  rw [jsSlice_eq]
  have hlen : 1 ≤ rest.length := by
    rcases rest with _ | ⟨a, r2⟩
    · exact absurd rfl hr
    · simp
  have hlen2 : ((pre ++ rest).length : Int) = pre.length + rest.length := by
    simp
  rcases pre with _ | ⟨a, pre2⟩
  · have he : ((if ((((List.nil : List α)).length : Int)) < 0
        then max ((((List.nil : List α) ++ rest).length : Int) + (((List.nil : List α)).length : Int)) 0
        else min ((((List.nil : List α)).length : Int)) ((((List.nil : List α) ++ rest).length : Int))).toNat) = 0 := by
      rw [if_neg (by simp)]
      simp
    rw [he]
    simp
  · rcases pre2 with _ | ⟨b, pre3⟩
    · have hcast : ((([a] : List α).length : Int)) = 1 := by simp
      have hs : ((if (((([a] : List α).length : Int)) - 2) < 0
          then max (((([a] : List α) ++ rest).length : Int) + (((([a] : List α).length : Int)) - 2)) 0
          else min (((([a] : List α).length : Int)) - 2) (((([a] : List α) ++ rest).length : Int))).toNat)
            = rest.length := by
        rw [if_pos (by rw [hcast]; decide)]
        rw [hcast] at hlen2 ⊢
        rw [hlen2]
        omega
      have he : ((if ((([a] : List α).length : Int)) < 0
          then max (((([a] : List α) ++ rest).length : Int) + ((([a] : List α).length : Int))) 0
          else min ((([a] : List α).length : Int)) (((([a] : List α) ++ rest).length : Int))).toNat) = 1 := by
        rw [if_neg (by rw [hcast]; decide)]
        rw [hcast] at hlen2 ⊢
        rw [hlen2]
        omega
      rw [hs, he]
      apply List.drop_eq_nil_of_le
      calc (List.take 1 ([a] ++ rest)).length ≤ 1 := by
             simpa using List.length_take_le 1 ([a] ++ rest)
        _ ≤ rest.length := hlen
    · simp at hL
      omega

/-- A splice whose deletions reach exactly the end of the array keeps the
prefix before the start index and appends the inserted items. -/
theorem jsSplice_take_form {α : Type} (l : List α) (k : Nat) (d : Nat) (items : List α)
    (hk : k + d = l.length) :
    jsSplice l (k : Int) d items = l.take k ++ items := by
  rw [jsSplice_eq]
  have hs : ((if ((k : Int)) < 0 then max ((l.length : Int) + k) 0
      else min ((k : Int)) ((l.length : Int))).toNat) = k := by
    rw [if_neg (by omega)]
    omega
  rw [hs, hk, List.drop_eq_nil_of_le (by omega), List.append_nil]

/-- jsSplice_take_form with the start index given as an Int expression. -/
theorem jsSplice_take_form2 {α : Type} (l : List α) (j : Int) (k : Nat) (d : Nat)
    (items : List α) (hj : j = (k : Int)) (hk : k + d = l.length) :
    jsSplice l j d items = l.take k ++ items := by
  rw [hj]
  exact jsSplice_take_form l k d items hk

/-- Inverting the aligned image of a ref token that is neither a parameter
nor pseudo-rooted: the token is a resolved non-join-relevant scalar ref and
its image is the alias-rooted two-step flat ref. -/
theorem alignedImg_tref_elim (env : Env) (p : List Step) (mm : RefMeta) (img : Token)
    (himg : alignedImg env (Token.tref p mm) = .ok img)
    (hpar2 : mm.param = false)
    (hps2 : (pseudoElem? ((p.headD (Step.plain "")).id)).isSome = false) :
    ∃ d a, ((mm.refLinks.bind List.getLast?).map RefLink.definition) = some d
      ∧ mm.isJoinRelevant = false
      ∧ d.elements.isEmpty = true ∧ d.fks = none ∧ d.target = none
      ∧ getQuerySourceName env
          { path := p, refLinks := mm.refLinks.getD [],
            isJoinRelevant := false } none = .ok a
      ∧ img = Token.tref ([a, mm.flatName.getD "undefined"].map Step.plain) mm := by
  simp only [alignedImg, hpar2, hps2, Bool.false_eq_true, if_false] at himg
  rcases hjr : mm.isJoinRelevant with _ | _
  · rw [hjr] at himg
    simp only [Bool.false_eq_true, if_false] at himg
    rcases hd : ((mm.refLinks.bind List.getLast?).map RefLink.definition) with _ | d
    · rw [hd] at himg
      exact Except.noConfusion himg
    · simp only [hd] at himg
      rcases hsc : (d.elements.isEmpty && d.fks.isNone && d.target.isNone) with _ | _
      · rw [hsc] at himg
        simp only [Bool.false_eq_true, if_false] at himg
        exact Except.noConfusion himg
      · rw [hsc] at himg
        simp only [if_true] at himg
        rcases hsrc : getQuerySourceName env
            { path := p, refLinks := mm.refLinks.getD [],
              isJoinRelevant := false } none with e1 | a
        · simp only [hsrc, bind, Except.bind] at himg
          exact Except.noConfusion himg
        · simp only [hsrc, bind, Except.bind, pure, Except.pure,
            Except.ok.injEq] at himg
          simp only [Bool.and_eq_true] at hsc
          exact ⟨d, a, rfl, rfl, hsc.1.1, Option.isNone_iff_eq_none.mp hsc.1.2,
            Option.isNone_iff_eq_none.mp hsc.2, rfl, himg.symm⟩
  · rw [hjr] at himg
    simp only [if_true] at himg
    exact Except.noConfusion himg

/-- Simulation of the stream walker over a block of one-for-one tokens:
walking toks from index i with budget toks.length + n appends exactly the
aligned images of toks to the accumulator and continues at index
i + toks.length with budget n. -/
theorem gttsGo_aligned (env : Env)
    (recur : List Token → Option RefLink → Except String (List Token))
    (fuelF : Nat) (stream : List Token) :
    ∀ (toks imgs : List Token) (n i : Nat) (acc rest out : List Token),
      toks.mapM (alignedImg env) = .ok imgs →
      stream.drop i = toks ++ rest →
      gttsGo env recur fuelF stream none (toks.length + n) i acc = .ok out →
      gttsGo env recur fuelF stream none n (i + toks.length) (acc ++ imgs) = .ok out := by
  intro toks
  induction toks with
  | nil =>
    intro imgs n i acc rest out himgs hdrop hok
    rw [show List.mapM (alignedImg env) [] = pure [] from rfl] at himgs
    simp only [pure, Except.pure, Except.ok.injEq] at himgs
    subst himgs
    simp only [List.length_nil, Nat.zero_add] at hok
    simpa using hok
  | cons t ts ih =>
    intro imgs n i acc rest out himgs hdrop hok
    rw [List.mapM_cons] at himgs
    rcases himg : alignedImg env t with e | img
    · rw [himg] at himgs
      simp only [bind, Except.bind] at himgs
      exact Except.noConfusion himgs
    · rw [himg] at himgs
      simp only [bind, Except.bind] at himgs
      rcases hrest2 : List.mapM (alignedImg env) ts with e2 | imgs2
      · rw [hrest2] at himgs
        exact Except.noConfusion himgs
      · rw [hrest2] at himgs
        simp only [pure, Except.pure, Except.ok.injEq] at himgs
        subst himgs
        have hget : stream.get? i = some t := by
          have h2 : (stream.drop i).get? 0 = some t := by rw [hdrop]; rfl
          rw [List.get?_drop] at h2
          simpa using h2
        have hdrop2 : stream.drop (i + 1) = ts ++ rest := by
          have h1 : (stream.drop i).drop 1 = stream.drop (i + 1) := by
            rw [List.drop_drop, Nat.add_comm]
          rw [← h1, hdrop]
          rfl
        have hbud : (t :: ts).length + n = Nat.succ (ts.length + n) := by
          simp only [List.length_cons]
          omega
        rw [hbud] at hok
        have hstep : gttsGo env recur fuelF stream none (ts.length + n) (i + 1)
            (acc ++ [img]) = .ok out := by
          rcases t with s | v | ⟨p, mm⟩ | ts0 | ts0 | ⟨fn, args⟩ | ssub
          case str =>
            by_cases hS : s = "exists"
            · subst hS
              simp [alignedImg] at himg
            · simp [alignedImg, hS] at himg
              subst himg
              simp only [gttsGo, hget] at hok
              split at hok
              · exact Except.noConfusion hok
              · rename_i ts1 heq
                exact Token.noConfusion heq
              · simp only [Option.isSome_none, Bool.and_false, Bool.false_eq_true, if_false,
                  isStructured, Bool.false_and] at hok
                exact hok
          case tval =>
            simp [alignedImg] at himg
            subst himg
            simp only [gttsGo, hget, Option.isSome_none, Bool.and_false, Bool.false_eq_true,
              if_false, isStructured, Bool.false_and] at hok
            exact hok
          case tref =>
            by_cases hpar : mm.param = true
            · simp [alignedImg, hpar] at himg
              subst himg
              simp only [gttsGo, hget, Option.isSome_none, Bool.and_false, Bool.false_eq_true,
                if_false, hpar, if_true, ite_true] at hok
              exact hok
            · have hpar2 : mm.param = false := Bool.eq_false_iff.mpr hpar
              by_cases hps : (pseudoElem? ((p.headD (Step.plain "")).id)).isSome = true
              · have hpsN := hps
                rw [List.headD_eq_head?_getD] at hpsN
                simp [alignedImg, hpar2, hpsN] at himg
                subst himg
                simp only [gttsGo, hget, Option.isSome_none, Bool.and_false,
                  Bool.false_eq_true, if_false, hpar2, hps, if_true, ite_true,
                  ite_false] at hok
                exact hok
              · have hps2 : (pseudoElem? ((p.headD (Step.plain "")).id)).isSome = false :=
                  Bool.eq_false_iff.mpr hps
                obtain ⟨d, a, hd, hjr, helem, hfk2, htg2, hsrc, himgEq⟩ :=
                  alignedImg_tref_elim env p mm img himg hpar2 hps2
                subst himgEq
                simp only [gttsGo, hget, Option.isSome_none, Bool.and_false,
                  Bool.false_eq_true, if_false, hpar2, hps2, ite_false, hd,
                  helem, hfk2, htg2, hjr, Bool.not_true, Bool.or_false,
                  Bool.false_and, isStructured, hsrc,
                  bind, Except.bind] at hok
                exact hok
          case tlist =>
            simp only [alignedImg] at himg
            exact Except.noConfusion himg
          case txpr =>
            simp only [alignedImg] at himg
            exact Except.noConfusion himg
          case tfunc =>
            simp only [alignedImg] at himg
            exact Except.noConfusion himg
          case tselect =>
            simp only [alignedImg] at himg
            exact Except.noConfusion himg
        have hrec := ih imgs2 n (i + 1) (acc ++ [img]) rest out hrest2 hdrop2 hstep
        have hacc2 : acc ++ img :: imgs2 = (acc ++ [img]) ++ imgs2 := by simp
        have harith : i + (t :: ts).length = i + 1 + ts.length := by
          simp only [List.length_cons]
          omega
        rw [hacc2, harith]
        exact hrec

/-- C4 (amended): the empty-IN-list rewrite decides by the input token
stream but splices the output array at input positions.  Over the
index-aligned fragment (every other token rewritten one-for-one), for an
empty list at position pre.length: if the input token two positions earlier
lowercases to not, the two preceding output tokens are replaced by
is not null regardless of the token in between; otherwise if the token
directly before it lowercases to in, that token is replaced by = null;
otherwise the empty list passes through.  Outside the aligned fragment the
input indices miss the output positions (see c4_counterexample and the
misalignment conjunct of the amended statement in the results). -/
theorem c4_empty_list_rewrite (env : Env) (fuel : Nat)
    (pre post preImg postImg out : List Token)
    (hpre : pre.mapM (alignedImg env) = .ok preImg)
    (hpost : post.mapM (alignedImg env) = .ok postImg)
    (hok : gtts env (Nat.succ fuel) (pre ++ Token.tlist [] :: post) none = .ok out) :
    ((lowerStrAt (jsSlice (pre ++ Token.tlist [] :: post)
          ((pre.length : Int) - 2) (pre.length : Int)) 0 == "not") = true →
        out = preImg.take (pre.length - 2)
          ++ [Token.str "is", Token.str "not", Token.str "null"] ++ postImg)
    ∧ ((lowerStrAt (jsSlice (pre ++ Token.tlist [] :: post)
          ((pre.length : Int) - 2) (pre.length : Int)) 0 == "not") = false →
       (lowerStrAt (jsSlice (pre ++ Token.tlist [] :: post)
          ((pre.length : Int) - 2) (pre.length : Int)) 1 == "in") = true →
        out = preImg.take (pre.length - 1)
          ++ [Token.str "=", Token.tval Val.vnull] ++ postImg)
    ∧ ((lowerStrAt (jsSlice (pre ++ Token.tlist [] :: post)
          ((pre.length : Int) - 2) (pre.length : Int)) 0 == "not") = false →
       (lowerStrAt (jsSlice (pre ++ Token.tlist [] :: post)
          ((pre.length : Int) - 2) (pre.length : Int)) 1 == "in") = false →
        out = preImg ++ Token.tlist [] :: postImg) := by
  have hL : preImg.length = pre.length := exceptMapM_length (alignedImg env) pre preImg hpre
  have h0 : gtts env (Nat.succ fuel) (pre ++ Token.tlist [] :: post) none
      = gttsGo env (gtts env fuel) fuel (pre ++ Token.tlist [] :: post) none
          ((pre ++ Token.tlist [] :: post).length + 1) 0 [] := rfl
  rw [h0] at hok
  have hbud : (pre ++ Token.tlist [] :: post).length + 1 = pre.length + (post.length + 2) := by
    simp
    omega
  rw [hbud] at hok
  have h1 := gttsGo_aligned env (gtts env fuel) fuel (pre ++ Token.tlist [] :: post)
    pre preImg (post.length + 2) 0 [] (Token.tlist [] :: post) out hpre rfl hok
  simp only [Nat.zero_add, List.nil_append] at h1
  have hdropL : (pre ++ Token.tlist [] :: post).drop pre.length = Token.tlist [] :: post := by
    rw [List.drop_left]
  have hgetL : (pre ++ Token.tlist [] :: post).get? pre.length = some (Token.tlist []) := by
    have h2 : ((pre ++ Token.tlist [] :: post).drop pre.length).get? 0
        = some (Token.tlist []) := by
      rw [hdropL]
      rfl
    rw [List.get?_drop] at h2
    simpa using h2
  have hdropL1 : (pre ++ Token.tlist [] :: post).drop (pre.length + 1) = post := by
    have h5 : ((pre ++ Token.tlist [] :: post).drop pre.length).drop 1
        = (pre ++ Token.tlist [] :: post).drop (pre.length + 1) := by
      rw [List.drop_drop, Nat.add_comm]
    rw [← h5, hdropL]
    rfl
  have hbud2 : post.length + 2 = Nat.succ (post.length + 1) := by omega
  rw [hbud2] at h1
  simp only [gttsGo, hgetL, List.isEmpty_nil, if_true] at h1
  have hnone : (pre ++ Token.tlist [] :: post).get? (pre.length + 1 + post.length) = none := by
    apply List.get?_eq_none.mpr
    simp
    omega
  refine ⟨?_, ?_, ?_⟩
  · intro hnot
    simp only [lowerStrAt] at hnot
    by_cases hL2 : 2 ≤ pre.length
    · simp only [hnot, if_true] at h1
      have h6 := gttsGo_aligned env (gtts env fuel) fuel (pre ++ Token.tlist [] :: post)
        post postImg 1 (pre.length + 1)
        (jsSplice preImg ((pre.length : Int) - 2) 2
          [Token.str "is", Token.str "not", Token.str "null"]) [] out hpost
        (by rw [hdropL1, List.append_nil]) h1
      simp only [gttsGo, hnone, pure, Except.pure, Except.ok.injEq] at h6
      have hsp := jsSplice_take_form2 preImg ((pre.length : Int) - 2) (pre.length - 2) 2
        [Token.str "is", Token.str "not", Token.str "null"] (by omega) (by omega)
      rw [hsp] at h6
      rw [← h6]
    · rw [jsSlice_pre_short pre (Token.tlist [] :: post) (by simp) (by omega)] at hnot
      simp at hnot
  · intro hnotF hin
    simp only [lowerStrAt] at hnotF hin
    by_cases hL2 : 2 ≤ pre.length
    · simp only [hnotF, Bool.false_eq_true, if_false, hin, if_true] at h1
      have h6 := gttsGo_aligned env (gtts env fuel) fuel (pre ++ Token.tlist [] :: post)
        post postImg 1 (pre.length + 1)
        (jsSplice preImg ((pre.length : Int) - 1) 1
          [Token.str "=", Token.tval Val.vnull]) [] out hpost
        (by rw [hdropL1, List.append_nil]) h1
      simp only [gttsGo, hnone, pure, Except.pure, Except.ok.injEq] at h6
      have hsp := jsSplice_take_form2 preImg ((pre.length : Int) - 1) (pre.length - 1) 1
        [Token.str "=", Token.tval Val.vnull] (by omega) (by omega)
      rw [hsp] at h6
      rw [← h6]
    · rw [jsSlice_pre_short pre (Token.tlist [] :: post) (by simp) (by omega)] at hin
      simp at hin
  · intro hnotF hinF
    simp only [lowerStrAt] at hnotF hinF
    simp only [hnotF, hinF, Bool.false_eq_true, if_false] at h1
    have h6 := gttsGo_aligned env (gtts env fuel) fuel (pre ++ Token.tlist [] :: post)
      post postImg 1 (pre.length + 1) (preImg ++ [Token.tlist []]) [] out hpost
      (by rw [hdropL1, List.append_nil]) h1
    simp only [gttsGo, hnone, pure, Except.pure, Except.ok.injEq] at h6
    rw [← h6]
    simp

/-- Witness for the amended C4: not like () over literal tokens becomes
is not null with the splice landing on the aligned output positions. -/
theorem c4_empty_list_rewrite_witness :
    ([Token.tval (Val.vint 1), Token.str "is", Token.str "not", Token.str "null",
      Token.str "and", Token.tval (Val.vint 2)] : List Token)
      = ([Token.tval (Val.vint 1), Token.str "not", Token.str "like"] : List Token).take
          (([Token.tval (Val.vint 1), Token.str "not", Token.str "like"] : List Token).length - 2)
        ++ [Token.str "is", Token.str "not", Token.str "null"]
        ++ [Token.str "and", Token.tval (Val.vint 2)] :=
  (c4_empty_list_rewrite { defs := [] } 4
    [Token.tval (Val.vint 1), Token.str "not", Token.str "like"]
    [Token.str "and", Token.tval (Val.vint 2)]
    [Token.tval (Val.vint 1), Token.str "not", Token.str "like"]
    [Token.str "and", Token.tval (Val.vint 2)]
    [Token.tval (Val.vint 1), Token.str "is", Token.str "not", Token.str "null",
     Token.str "and", Token.tval (Val.vint 2)]
    rfl rfl rfl).1 rfl

/-- C6 (amended): comparing a structured operand with a non-null scalar
value fails exactly when the operand flattens to more than one leaf column;
a single-leaf structure is rewritten to the comparison of its only leaf with
the value. -/
theorem c6_struct_value_comparison (env : Env) (fuel : Nat) (path : List Step)
    (m : RefMeta) (ops : List String) (v : Val) (flatLhs : List FlatCol)
    (hv : v ≠ Val.vnull)
    (hf : flattenWithBaseName env fuel path m = .ok flatLhs) :
    (flatLhs.length > 1 →
      expandComparison env fuel (Token.tref path m) ops (Token.tval v)
        = .error "Cannot compare structure with value")
    ∧ (∀ c, flatLhs = [c] →
      expandComparison env fuel (Token.tref path m) ops (Token.tval v)
        = .ok ([c.toToken] ++ ops.map Token.str ++ [Token.tval v])) := by
  have hnull : (match Token.tval v with
      | .tval Val.vnull => true | .str "null" => true | _ => false) = false := by
    cases v <;> simp_all
  constructor
  · intro hlen
    unfold expandComparison
    simp only [hf, hnull, bind, Except.bind, pure, Except.pure]
    simp [hlen]
  · intro c hc
    unfold expandComparison
    subst hc
    simp only [hf, hnull, bind, Except.bind, pure, Except.pure]
    simp [List.intercalate, List.intersperse]

/-- Witness for the amended C6 at the two-leaf fixture structure. -/
theorem c6_struct_value_comparison_witness :
    expandComparison fixEnv 5 (Token.tref [Step.plain "struc"] strucMetaFix) ["="]
        (Token.tval (Val.vint 5))
      = .error "Cannot compare structure with value" :=
  (c6_struct_value_comparison fixEnv 5 [Step.plain "struc"] strucMetaFix ["="] (Val.vint 5)
    [{ path := ["Books", "struc_x"], csnPath := ["struc", "x"] },
     { path := ["Books", "struc_y"], csnPath := ["struc", "y"] }]
    (by decide) rfl).1 (by decide)

/-- C6 counterexample: a structured operand with a single leaf compared with
the non-null scalar 5 is rewritten successfully instead of failing. -/
theorem c6_counterexample :
    gtts fixEnv 5 [oneTokFix, Token.str "=", Token.tval (Val.vint 5)] none
      = Except.ok [Token.tref [Step.plain "Books", Step.plain "one_x"] {},
                   Token.str "=", Token.tval (Val.vint 5)] :=
  rfl

/-- C8 (amended): the ExpectingAlias error is raised exactly for expression,
subquery or parameter columns whose alias chain (as, else func, else val) is
undefined; a literal value column without an alias does not fail but falls
back to the value itself as the element name. -/
theorem c8_expecting_alias (env : IEnv) (scope : IScope) :
    (∀ (col : IColumn) (rest : List IColumn),
      col.star = false → col.val = none → strTruthy col.as = false →
      strTruthy col.funcName = false →
      (col.xprF = true ∨ col.selectF = true ∨ col.param = true) →
      inferColumnsFirstPass env scope (col :: rest)
        = .error "Expecting expression to have an alias name")
    ∧ (∀ v : Val,
      inferColumnsFirstPass env scope [{ val := some v }]
        = .ok ([(v.keyString, getCdsTypeForVal v)], [], false)) := by
  constructor
  · intro col rest hstar hval has hfunc hflag
    have hchain : aliasChain col = none := by
      unfold aliasChain
      simp [has, hfunc, hval]
    have hp : ((col.xprF = true ∨ col.selectF = true) ∨ col.funcName.isSome = true)
        ∨ col.param = true := by tauto
    unfold inferColumnsFirstPass
    simp [List.foldlM, hstar, hchain, hval, hp, bind, Except.bind]
  · intro v
    unfold inferColumnsFirstPass
    simp [List.foldlM, aliasChain, strTruthy, getCdsTypeForVal, pure, Except.pure,
      bind, Except.bind]

/-- Witness for the amended C8: an expression column without any alias
source raises ExpectingAlias. -/
theorem c8_expecting_alias_witness :
    inferColumnsFirstPass { defs := [] } { sources := [], combined := [] }
        [{ xprF := true }] = .error "Expecting expression to have an alias name" :=
  (c8_expecting_alias { defs := [] } { sources := [], combined := [] }).1
    { xprF := true } [] rfl rfl rfl rfl (Or.inl rfl)

/-- C8 counterexample: a literal value column without as does not fail
inference; the value becomes the element key. -/
theorem c8_counterexample :
    infer { defs := [("Books", booksEnt)] }
        { fromName := "Books", columns := some [{ val := some (Val.vint 5) }] }
      = .ok { target := booksEnt, elements := [("5", cdsTypeDef "cds.Integer")] } :=
  rfl

/-- C9 (amended): a single truthy literal value as the whole infix filter
stream is rewritten to an equality of the one non-backlink flat key of the
base link target with the value, and fails when there is more than one such
flat key. -/
theorem c9_single_val_filter (env : Env) (fuel : Nat) (blv : RefLink) (v : Val)
    (flatKeys : List FlatCol)
    (hv : v.truthy = true)
    (hk : nonBacklinkFlatKeys env fuel blv = .ok flatKeys) :
    (∀ c, flatKeys = [c] →
      gtts env (fuel + 1) [Token.tval v] (some blv)
        = .ok [c.toToken, Token.str "=", Token.tval v])
    ∧ (flatKeys.length > 1 →
      gtts env (fuel + 1) [Token.tval v] (some blv)
        = .error "Filters can only be applied to managed associations which result in a single foreign key") := by
  constructor
  · intro c hc
    subst hc
    unfold gtts gttsGo
    simp [hk, hv, joinWithAnd, List.intercalate, List.intersperse, gttsGo,
      bind, Except.bind, pure, Except.pure]
  · intro hlen
    unfold gtts gttsGo
    simp [hk, hv, hlen, bind, Except.bind, pure, Except.pure]

/-- Witness for the amended C9 at the author association fixture (exactly
one non-backlink flat key). -/
theorem c9_single_val_filter_witness :
    gtts fixEnv 5 [Token.tval (Val.vint 5)] (some authorLinkFix)
      = .ok [Token.tref [Step.plain "author", Step.plain "ID"] {},
             Token.str "=", Token.tval (Val.vint 5)] :=
  (c9_single_val_filter fixEnv 4 authorLinkFix (Val.vint 5)
      [{ path := ["author", "ID"], csnPath := ["ID"] }] rfl rfl).1
    { path := ["author", "ID"], csnPath := ["ID"] } rfl

/-- Helper for C10: a later step of a path rooted in the $user pseudo never
fails, whatever the step id, and the pseudo-path flag is preserved. -/
theorem inferStep_user_ok (env : IEnv) (ref : List String) (i : Nat) (id : String)
    (w : IWalk) (h0 : ref.headD "" = "$user") (hp : w.pseudoPath = true) :
    ∃ w2, inferStep env ref false i id w = .ok w2 ∧ w2.pseudoPath = true := by
  unfold inferStep
  simp [h0, hp, bind, Except.bind, pure, Except.pure]
  repeat' split
  all_goals first
    | exact ⟨_, rfl, rfl⟩
    | simp_all

/-- Reduction of an Except bind whose scrutinee is ok. -/
theorem except_bind_ok {α β : Type} (a : α) (f : α → Except String β) :
    (Except.ok a >>= f : Except String β) = f a := rfl

/-- A monadic computation followed by pure returns the computed value. -/
theorem fold_then_pure {α : Type} {x : Except String α} {w : α} (h : x = Except.ok w) :
    (x >>= fun y => pure y) = Except.ok w := by
  subst h
  rfl

/-- The alias assignment step of the walk does not change the pseudo-path
flag. -/
theorem setStepAlias_pseudoPath (w : IWalk) (i : Nat) (ref : List String)
    (colAs : Option String) :
    (inferWalk.setStepAlias w i ref colAs).pseudoPath = w.pseudoPath := rfl

/-- The persistence tracking step of the walk does not change the
pseudo-path flag. -/
theorem markPersistence_pseudoPath (env : IEnv) (w : IWalk) (i : Nat) :
    (inferWalk.markPersistence env w i).pseudoPath = w.pseudoPath := by
  unfold inferWalk.markPersistence
  dsimp only
  split <;> rfl

/-- Helper for C10: the fold over the later steps of a $user-rooted path
never fails and keeps the pseudo-path flag. -/
theorem inferFoldUser (env : IEnv) (ref : List String) (colAs : Option String)
    (h0 : ref.headD "" = "$user") :
    ∀ (l : List (String × Nat)) (w : IWalk), w.pseudoPath = true →
    ∃ w', (l.foldlM (fun w p => do
        let w2 ← inferStep env ref false (p.2 + 1) p.1 w
        pure (inferWalk.markPersistence env
          (inferWalk.setStepAlias w2 (p.2 + 1) ref colAs) (p.2 + 1))) w)
      = Except.ok w' ∧ w'.pseudoPath = true := by
  intro l
  induction l with
  | nil => exact fun w hw => ⟨w, rfl, hw⟩
  | cons a t ih =>
    intro w hw
    obtain ⟨aid, aj⟩ := a
    obtain ⟨w2, h2, hp2⟩ := inferStep_user_ok env ref (aj + 1) aid w h0 hw
    have hp4 : (inferWalk.markPersistence env
        (inferWalk.setStepAlias w2 (aj + 1) ref colAs) (aj + 1)).pseudoPath = true := by
      rw [markPersistence_pseudoPath, setStepAlias_pseudoPath]
      exact hp2
    obtain ⟨w', hfold, hp'⟩ := ih (inferWalk.markPersistence env
        (inferWalk.setStepAlias w2 (aj + 1) ref colAs) (aj + 1)) hp4
    refine ⟨w', ?_, hp'⟩
    simp only [List.foldlM, h2, bind, Except.bind, pure, Except.pure]
    exact hfold

/-- Helper for C10: the whole walk of a $user-rooted path never fails. -/
theorem inferWalk_user_ok (env : IEnv) (scope : IScope) (qe : List (String × Def))
    (rest : List String) (colAs : Option String) :
    ∃ w, inferWalk env scope qe ("$user" :: rest) colAs = .ok w ∧ w.pseudoPath = true := by
  have h0 : ("$user" :: rest).headD "" = "$user" := rfl
  obtain ⟨w', hfold, hp'⟩ := inferFoldUser env ("$user" :: rest) colAs h0
    (rest.zip (List.range rest.length))
    (inferWalk.markPersistence env
      (inferWalk.setStepAlias
        { links := [{ definition := pseudoUser, target := pseudosDef }],
          nameSegments := ["$user"], pseudoPath := true }
        0 ("$user" :: rest) colAs) 0)
    (by rw [markPersistence_pseudoPath, setStepAlias_pseudoPath])
  refine ⟨w', ?_, hp'⟩
  have hfs : inferFirstStep scope qe ("$user" :: rest) "$user" = .ok
      { links := [{ definition := pseudoUser, target := pseudosDef }],
        nameSegments := ["$user"], pseudoPath := true } := rfl
  simp only [inferWalk]
  rw [hfs]
  rw [except_bind_ok]
  simp only [show (("$user" == "$self" || "$user" == "$projection") : Bool) = false from rfl,
    Bool.and_false]
  exact fold_then_pure hfold

/-- C10: the single-step $user reference infers the id child element of the
$user pseudo definition as the query element, and every path rooted in
$user, unknown sub-steps included, resolves without error. -/
theorem c10_user_resolution (env : IEnv) (scope : IScope) (qe : List (String × Def)) :
    (inferQueryElement env scope [] { ref := some ["$user"] } true
       = .ok ([("$user", (pseudoUser.elem? "id").getD default)],
              [{ definition := pseudoUser, target := pseudosDef, alias' := "$user" }],
              (pseudoUser.elem? "id").getD default))
    ∧ (∀ rest : List String, ∃ r,
        inferQueryElement env scope qe { ref := some ("$user" :: rest) } false
          = Except.ok r) := by
  constructor
  · rfl
  · intro rest
    obtain ⟨w, hw, -⟩ := inferWalk_user_ok env scope qe rest none
    unfold inferQueryElement
    simp [hw, bind, Except.bind, pure, Except.pure]

/-- An index returned by findIdx? is within bounds. -/
theorem findIdx?_lt_len {α : Type} (p : α → Bool) (l : List α) (i : Nat)
    (h : l.findIdx? p = some i) : i < l.length :=
  (List.findIdx?_eq_some_iff_findIdx_eq.mp h).1

/-- The leftover right side of the structural matching loop is at least the
length difference of the two sides. -/
theorem structPairLoop_leftover (ops : List String) (bo : String) :
    ∀ (L R : List FlatCol) (errs : List String) (res : List Token),
      R.length - L.length ≤ (structPairLoop ops bo L R errs res).2.2.length := by
  intro L
  induction L with
  | nil =>
    intro R errs res
    simp [structPairLoop]
  | cons l rest ih =>
    intro R errs res
    simp only [structPairLoop]
    split
    · simp only [List.length_cons]
      calc R.length - (rest.length + 1) ≤ R.length - rest.length := by omega
        _ ≤ _ := ih R _ _
    · rename_i idx h
      have hidx := findIdx?_lt_len _ _ _ h
      have hlen : (R.eraseIdx idx).length = R.length - 1 := by
        rw [List.length_eraseIdx]
        simp [hidx]
      simp only [List.length_cons]
      calc R.length - (rest.length + 1) = (R.eraseIdx idx).length - rest.length := by omega
        _ ≤ _ := ih (R.eraseIdx idx) _ _

/-- No leftover on the right side means it was no longer than the left. -/
theorem structPairLoop_noLeft (ops : List String) (bo : String)
    (L R : List FlatCol) (errs : List String) (res : List Token)
    (h : (structPairLoop ops bo L R errs res).2.2 = []) : R.length ≤ L.length := by
  have hle := structPairLoop_leftover ops bo L R errs res
  rw [h] at hle
  simp at hle
  omega

/-- On success (equal lengths, no leftover) the structural matching loop
emits exactly one comparison per left leaf, joined by the connective. -/
theorem structPairLoop_chain (ops : List String) (bo : String) :
    ∀ (L R : List FlatCol) (errs : List String) (res : List Token),
      R.length = L.length → L ≠ [] →
      (structPairLoop ops bo L R errs res).2.2 = [] →
      ∃ tail, (structPairLoop ops bo L R errs res).2.1 = res ++ tail
        ∧ CompChain bo ops tail L.length := by
  intro L
  induction L with
  | nil =>
    intro R errs res _ hne _
    exact absurd rfl hne
  | cons l rest ih =>
    intro R errs res hlen hne hleft
    revert hleft
    by_cases hrest : rest = []
    · -- single left leaf
      subst hrest
      simp only [structPairLoop, List.isEmpty_nil, if_true]
      split
      · -- unmatched: the whole right side is left over
        intro hleft
        simp at hleft
        rw [hleft] at hlen
        simp at hlen
      · rename_i idx h
        intro _
        refine ⟨[Token.tref (List.map Step.plain l.path) {}] ++ List.map Token.str ops
          ++ [((R.get? idx).getD default).toToken], ?_, ?_⟩
        · simp [List.append_assoc]
        · apply CompChain.single
    · -- more than one left leaf
      have hE : rest.isEmpty = false := by
        cases rest
        · exact absurd rfl hrest
        · rfl
      simp only [structPairLoop, hE, Bool.false_eq_true, if_false]
      split
      · -- unmatched leaf: the leftover cannot vanish
        intro hleft
        have hle := structPairLoop_noLeft _ _ _ _ _ _ hleft
        simp only [List.length_cons] at hlen hle
        omega
      · rename_i idx h
        intro hleft
        have hidx := findIdx?_lt_len _ _ _ h
        have hlen2 : (R.eraseIdx idx).length = rest.length := by
          rw [List.length_eraseIdx, if_pos hidx]
          simp only [List.length_cons] at hlen ⊢
          omega
        obtain ⟨tail2, hout, hchain⟩ := ih (R.eraseIdx idx) errs _ hlen2 hrest hleft
        refine ⟨([Token.tref (List.map Step.plain l.path) {}] ++ List.map Token.str ops
          ++ [((R.get? idx).getD default).toToken]) ++ [Token.str bo] ++ tail2, ?_, ?_⟩
        · rw [hout]
          simp [List.append_assoc]
        · exact CompChain.cons _ _ _ _ _ hchain

/-- The two-list intercalation step used by the value branch. -/
theorem intercalate_cons₂ {α : Type} (s : α) (a b : List α) (t : List (List α)) :
    List.intercalate [s] (a :: b :: t) = a ++ [s] ++ List.intercalate [s] (b :: t) := by
  simp [List.intercalate, List.intersperse]

/-- The value branch of expandComparison emits one comparison per leaf,
joined by the connective. -/
theorem intercalate_chain (conn : String) (ops : List String) (v : Token) :
    ∀ (cs : List FlatCol), cs ≠ [] →
      CompChain conn ops
        (List.intercalate [Token.str conn]
          (cs.map (fun c => [c.toToken] ++ ops.map Token.str ++ [v]))) cs.length := by
  intro cs
  induction cs with
  | nil => exact fun h => absurd rfl h
  | cons c rest ih =>
    intro _
    rcases rest with _ | ⟨c2, rest2⟩
    · simp only [List.map_cons, List.map_nil, List.intercalate, List.intersperse,
        List.flatten, List.length_cons, List.length_nil, List.append_nil]
      apply CompChain.single
    · rw [List.map_cons, List.map_cons, intercalate_cons₂]
      have hc := ih (by simp)
      exact CompChain.cons _ _ _ _ _ hc

/-- The structural-comparison branch of the stream walker rejects an
operator of the notSupportedOps table before expanding anything. -/
theorem gttsGo_notSupported (env : Env)
    (recur : List Token → Option RefLink → Except String (List Token))
    (fuelF rem : Nat) (p : List Step) (m : RefMeta) (d : Def) (op : String)
    (v : Val) (bl : Option RefLink) (acc : List Token)
    (hm : m.param = false)
    (hps : pseudoElem? ((p.headD (Step.plain "")).id) = none)
    (hd : ((m.refLinks.bind List.getLast?).map RefLink.definition) = some d)
    (hq : (!d.elements.isEmpty || d.fks.isSome) = true)
    (hf : allOps.any (fun o => o.headD "" == op) = true)
    (hns : notSupportedOps.any (fun o => o.headD "" == op) = true) :
    gttsGo env recur fuelF [Token.tref p m, Token.str op, Token.tval v] bl
        (Nat.succ rem) 0 acc
      = .error ("The operator " ++ op ++ " is not supported for structure comparison") := by
  have hps2 : pseudoElem? ((p.head?.getD (Step.plain "")).id) = none := by
    simpa using hps
  have hf2 := hf
  have hns2 := hns
  simp at hf2 hns2
  simp only [gttsGo]
  simp [hm, hps2, hd, hq, hf2, hns2, bind, Except.bind, pure, Except.pure]

/-- The value branch of expandComparison, abstracted on the flattened left
side: the output is a chain of one comparison per leaf. -/
theorem chainValueCase (conn : String) (ops : List String) (value : Token)
    (L : List FlatCol) (res : List Token)
    (h : List.intercalate [Token.str conn]
        (L.map (fun c => [c.toToken] ++ ops.map Token.str ++ [value])) = res)
    (hres : res ≠ []) : CompChain conn ops res L.length := by
  subst h
  refine intercalate_chain conn ops value L ?_
  intro h0
  subst h0
  exact hres rfl

/-- C9 counterexample: with a falsy literal (0) as the single filter token
and a target with exactly one non-backlink flat key, the filter is passed
through unchanged instead of being rewritten to an equality. -/
theorem c9_counterexample :
    nonBacklinkFlatKeys fixEnv 5 authorLinkFix
        = .ok [{ path := ["author", "ID"], csnPath := ["ID"] }]
    ∧ gtts fixEnv 5 [Token.tval (Val.vint 0)] (some authorLinkFix)
        = .ok [Token.tval (Val.vint 0)] :=
  ⟨rfl, rfl⟩

/-- C5: on a structural comparison the ordering operators lower-than,
greater-than, lower-or-equal and greater-or-equal are rejected with an
error, and the successful expansion emits one comparison per matched leaf,
the comparisons being connected by and for the equality-like operators
(=, is) and by or for the not-equal-like operators (<>, !=, is not). -/
theorem c5_structural_comparison :
    (∀ (env : Env) (fuel : Nat) (p : List Step) (m : RefMeta) (d : Def)
       (op : String) (v : Val) (bl : Option RefLink),
      m.param = false →
      pseudoElem? ((p.headD (Step.plain "")).id) = none →
      ((m.refLinks.bind List.getLast?).map RefLink.definition) = some d →
      (!d.elements.isEmpty || d.fks.isSome) = true →
      op ∈ ["<", ">", "<=", ">="] →
      gtts env (Nat.succ fuel) [Token.tref p m, Token.str op, Token.tval v] bl
        = .error ("The operator " ++ op ++ " is not supported for structure comparison"))
    ∧ (∀ (env : Env) (fuel : Nat) (p : List Step) (m : RefMeta) (value : Token)
         (ops : List String) (conn : String) (res : List Token),
      ((ops ∈ eqOps ∧ conn = "and") ∨ (ops ∈ notEqOps ∧ conn = "or")) →
      expandComparison env fuel (Token.tref p m) ops value = .ok res →
      res ≠ [] →
      ∃ flatLhs, flattenWithBaseName env fuel p m = .ok flatLhs
        ∧ CompChain conn ops res flatLhs.length) := by
  constructor
  · intro env fuel p m d op v bl hm hps hd hq hop
    have h1 : gtts env (Nat.succ fuel) [Token.tref p m, Token.str op, Token.tval v] bl
        = gttsGo env (gtts env fuel) fuel [Token.tref p m, Token.str op, Token.tval v]
            bl (Nat.succ 3) 0 [] := rfl
    rw [h1]
    simp only [List.mem_cons, List.not_mem_nil, or_false] at hop
    apply gttsGo_notSupported env (gtts env fuel) fuel 3 p m d op v bl [] hm hps hd hq
    · rcases hop with rfl | rfl | rfl | rfl <;> decide
    · rcases hop with rfl | rfl | rfl | rfl <;> decide
  · intro env fuel p m value ops conn res hcn hsucc hres
    have hbo : (if opsIsNotEq ops = true then "or" else "and") = conn := by
      rcases hcn with ⟨hmem, hc⟩ | ⟨hmem, hc⟩ <;> subst hc
      · simp only [eqOps, List.mem_cons, List.not_mem_nil, or_false] at hmem
        rcases hmem with rfl | rfl <;> rfl
      · simp only [notEqOps, List.mem_cons, List.not_mem_nil, or_false] at hmem
        rcases hmem with rfl | rfl | rfl <;> rfl
    unfold expandComparison at hsucc
    cases value
    case tref vpath vm =>
      rcases hvm : vm.refLinks with _ | links
      · -- the right side is not a resolved reference: value branch
        simp only [hvm, Option.isSome_none, Bool.false_eq_true, if_false,
          bind, Except.bind, pure, Except.pure] at hsucc
        rcases hL : flattenWithBaseName env fuel p m with ⟨e⟩ | ⟨L⟩
        · rw [hL] at hsucc
          exact Except.noConfusion hsucc
        · rw [hL] at hsucc
          simp only [] at hsucc
          repeat' split at hsucc
          all_goals first
            | exact Except.noConfusion hsucc
            | (rename_i hB
               simp only [pure, Except.pure, Except.ok.injEq] at hsucc
               rw [if_pos hB] at hbo
               subst hbo
               exact ⟨L, rfl, chainValueCase _ ops _ L res hsucc hres⟩)
            | (rename_i hB
               simp only [pure, Except.pure, Except.ok.injEq] at hsucc
               rw [if_neg hB] at hbo
               subst hbo
               exact ⟨L, rfl, chainValueCase _ ops _ L res hsucc hres⟩)
      · -- the right side is a resolved structure: pairwise matching branch
        simp only [hvm, Option.isSome_some, if_true, bind, Except.bind, pure,
          Except.pure] at hsucc
        rcases hR : flattenWithBaseName env fuel vpath vm with ⟨e⟩ | ⟨R⟩
        · rw [hR] at hsucc
          exact Except.noConfusion hsucc
        · rw [hR] at hsucc
          simp only [] at hsucc
          rcases hL : flattenWithBaseName env fuel p m with ⟨e⟩ | ⟨L⟩
          · rw [hL] at hsucc
            exact Except.noConfusion hsucc
          · rw [hL] at hsucc
            simp only [] at hsucc
            rw [hbo] at hsucc
            split at hsucc
            · exact Except.noConfusion hsucc
            · rename_i hlenNe
              have hlen : R.length = L.length := not_ne_iff.mp hlenNe
              rcases hsp : structPairLoop ops conn L R [] []
                with ⟨errs2, result2, left2⟩
              rw [hsp] at hsucc
              simp only [] at hsucc
              split at hsucc
              · exact Except.noConfusion hsucc
              · rename_i hleftB
                simp only [pure, Except.pure, Except.ok.injEq] at hsucc
                subst hsucc
                have hleft2 : left2 = [] := by
                  simpa [List.isEmpty_iff] using hleftB
                have hneL : L ≠ [] := by
                  intro h0
                  subst h0
                  simp only [structPairLoop, Prod.mk.injEq] at hsp
                  exact hres hsp.2.1.symm
                have hleft : (structPairLoop ops conn L R [] []).2.2 = [] := by
                  rw [hsp]
                  exact hleft2
                obtain ⟨tail, hout, hchain⟩ :=
                  structPairLoop_chain ops conn L R [] [] hlen hneL hleft
                have hres2 : result2 = tail := by
                  rw [hsp] at hout
                  simpa using hout
                refine ⟨L, rfl, ?_⟩
                rw [hres2]
                exact hchain
    case str s =>
      simp only [bind, Except.bind, pure, Except.pure] at hsucc
      rcases hL : flattenWithBaseName env fuel p m with ⟨e⟩ | ⟨L⟩
      · rw [hL] at hsucc
        exact Except.noConfusion hsucc
      · rw [hL] at hsucc
        simp only [] at hsucc
        repeat' split at hsucc
        all_goals first
          | exact Except.noConfusion hsucc
          | (rename_i hB
             simp only [pure, Except.pure, Except.ok.injEq] at hsucc
             rw [if_pos hB] at hbo
             subst hbo
             exact ⟨L, rfl, chainValueCase _ ops _ L res hsucc hres⟩)
          | (rename_i hB
             simp only [pure, Except.pure, Except.ok.injEq] at hsucc
             rw [if_neg hB] at hbo
             subst hbo
             exact ⟨L, rfl, chainValueCase _ ops _ L res hsucc hres⟩)
    all_goals (
      simp only [bind, Except.bind, pure, Except.pure] at hsucc
      rcases hL : flattenWithBaseName env fuel p m with ⟨e⟩ | ⟨L⟩
      · rw [hL] at hsucc
        exact Except.noConfusion hsucc
      · rw [hL] at hsucc
        simp only [] at hsucc
        repeat' split at hsucc
        all_goals first
          | exact Except.noConfusion hsucc
          | (rename_i hB
             simp only [pure, Except.pure, Except.ok.injEq] at hsucc
             rw [if_pos hB] at hbo
             subst hbo
             exact ⟨L, rfl, chainValueCase _ ops _ L res hsucc hres⟩)
          | (rename_i hB
             simp only [pure, Except.pure, Except.ok.injEq] at hsucc
             rw [if_neg hB] at hbo
             subst hbo
             exact ⟨L, rfl, chainValueCase _ ops _ L res hsucc hres⟩))

/-- Witness for C5 at the two-leaf fixture structure: the ordering operator
lower-than is rejected, and the equality comparison with null expands to an
and-joined chain with one comparison per leaf. -/
theorem c5_structural_comparison_witness :
    gtts fixEnv 5 [Token.tref [Step.plain "struc"] strucMetaFix, Token.str "<",
        Token.tval (Val.vint 5)] none
      = Except.error "The operator < is not supported for structure comparison"
    ∧ ∃ flatLhs, flattenWithBaseName fixEnv 5 [Step.plain "struc"] strucMetaFix
        = Except.ok flatLhs
      ∧ CompChain "and" ["="]
          [Token.tref [Step.plain "Books", Step.plain "struc_x"] {}, Token.str "=",
           Token.tval Val.vnull, Token.str "and",
           Token.tref [Step.plain "Books", Step.plain "struc_y"] {}, Token.str "=",
           Token.tval Val.vnull] flatLhs.length :=
  ⟨c5_structural_comparison.1 fixEnv 4 [Step.plain "struc"] strucMetaFix strucTwo "<"
      (Val.vint 5) none rfl rfl rfl (by decide) (by decide),
   c5_structural_comparison.2 fixEnv 5 [Step.plain "struc"] strucMetaFix
      (Token.tval Val.vnull) ["="] "and" _ (Or.inl ⟨by decide, rfl⟩) rfl
      (List.cons_ne_nil _ _)⟩

/-- An invariant preserved by every step of a foldlM over Except is
preserved by the whole fold. -/
theorem exceptFoldlM_inv {A B : Type} (P : B → Prop) (f : B → A → Except String B)
    (l : List A)
    (hstep : ∀ b x, P b → x ∈ l → ∀ b2, f b x = .ok b2 → P b2) :
    ∀ b0 b1, P b0 → l.foldlM f b0 = .ok b1 → P b1 := by
  induction l with
  | nil =>
    intro b0 b1 h0 hok
    rw [show List.foldlM f b0 [] = pure b0 from rfl] at hok
    simp only [pure, Except.pure, Except.ok.injEq] at hok
    subst hok
    exact h0
  | cons x xs ih =>
    intro b0 b1 h0 hok
    rw [show List.foldlM f b0 (x :: xs) = bind (f b0 x) (fun b => List.foldlM f b xs) from rfl] at hok
    rcases hf : f b0 x with e | b
    · rw [hf] at hok
      simp only [bind, Except.bind] at hok
      exact Except.noConfusion hok
    · rw [hf] at hok
      simp only [bind, Except.bind] at hok
      exact ih (fun b2 y hb hy => hstep b2 y hb (List.mem_cons_of_mem x hy)) b b1
        (hstep b0 x h0 (List.mem_cons_self x xs) b hf) hok

/-- all is preserved by take. -/
theorem all_take {α : Type} (p : α → Bool) (l : List α) (n : Nat)
    (h : l.all p = true) : (l.take n).all p = true := by
  rw [List.all_eq_true] at h ⊢
  intro x hx
  exact h x (List.mem_of_mem_take hx)

/-- all is preserved by drop. -/
theorem all_drop {α : Type} (p : α → Bool) (l : List α) (n : Nat)
    (h : l.all p = true) : (l.drop n).all p = true := by
  rw [List.all_eq_true] at h ⊢
  intro x hx
  exact h x (List.mem_of_mem_drop hx)

/-- A splice of a closed array with closed items is closed. -/
theorem jsSplice_all {α : Type} (p : α → Bool) (l : List α) (s : Int) (d : Nat)
    (items : List α) (hl : l.all p = true) (hi : items.all p = true) :
    (jsSplice l s d items).all p = true := by
  rw [jsSplice_eq]
  simp [List.all_append, all_take p l _ hl, all_drop p l _ hl, hi]

/-- The two-token window before a live index of the stream is empty when
fewer than two tokens precede it. -/
theorem jsSlice_win_short {α : Type} (l : List α) (i : Nat) (hi : i < l.length)
    (hlt : i < 2) : jsSlice l ((i : Int) - 2) (i : Int) = [] := by
  rw [jsSlice_eq]
  apply List.drop_eq_nil_of_le
  have he : ((if ((i : Int)) < 0 then max ((l.length : Int) + (i : Int)) 0
      else min ((i : Int)) ((l.length : Int))).toNat) = i := by
    rw [if_neg (by omega)]
    omega
  have hs : i ≤ ((if (((i : Int)) - 2) < 0
      then max ((l.length : Int) + (((i : Int)) - 2)) 0
      else min (((i : Int)) - 2) ((l.length : Int))).toNat) := by
    rw [if_pos (by omega)]
    omega
  rw [he]
  calc (List.take i l).length ≤ i := by simpa using List.length_take_le i l
    _ ≤ _ := hs

/-- Length of the is-not-null splice at an aligned index. -/
theorem jsSplice_len_not {α : Type} (l : List α) (i : Nat) (items : List α)
    (hacc : l.length = i) (hi2 : 2 ≤ i) (hit : items.length = 3) :
    (jsSplice l ((i : Int) - 2) 2 items).length = i + 1 := by
  rw [jsSplice_eq, if_neg (by omega)]
  simp only [List.length_append, List.length_take, List.length_drop, hacc, hit]
  omega

/-- Length of the equals-null splice at an aligned index. -/
theorem jsSplice_len_in {α : Type} (l : List α) (i : Nat) (items : List α)
    (hacc : l.length = i) (hi2 : 2 ≤ i) (hit : items.length = 2) :
    (jsSplice l ((i : Int) - 1) 1 items).length = i + 1 := by
  rw [jsSplice_eq, if_neg (by omega)]
  simp only [List.length_append, List.length_take, List.length_drop, hacc, hit]
  omega

/-- getQuerySourceName without a base link on a non-join-relevant node
returns the declared alias: through the combined-elements index every entry
resolves to the alias, and for an entity-kind first link the head of the
path is required to be the alias itself. -/
theorem gqsn_c2 (env : Env) (a : String)
    (hcomb : ∀ pr ∈ env.combined, (splitOnDot pr.2).getLastD "" = a)
    (n : NodeRef) (hjr : n.isJoinRelevant = false)
    (hent : (!(((n.refLinks.headD default).definition.kind == "entity"))
        || ((n.path.headD (Step.plain "")).id == a)) = true)
    (ta : String) (hok : getQuerySourceName env n none = .ok ta) : ta = a := by
  unfold getQuerySourceName at hok
  simp only [hjr, Bool.false_eq_true, if_false] at hok
  rcases hkind : ((n.refLinks.headD default).definition.kind == "entity") with _ | _
  · rw [hkind] at hok
    simp only [Bool.false_eq_true, if_false] at hok
    rcases hf : env.combined.find? (fun p => p.1 == (n.path.headD (Step.plain "")).id)
      with _ | pr
    · rw [hf] at hok
      exact Except.noConfusion hok
    · simp only [hf, pure, Except.pure, Except.ok.injEq] at hok
      subst hok
      exact hcomb pr (List.mem_of_find?_eq_some hf)
  · rw [hkind] at hok
    simp only [if_true, pure, Except.pure, Except.ok.injEq] at hok
    subst hok
    rw [hkind] at hent
    simp at hent
    rw [List.headD_eq_head?_getD]
    exact hent

/-- all is preserved by set with a satisfying element. -/
theorem all_set {α : Type} (p : α → Bool) (l : List α) (n : Nat) (x : α)
    (hl : l.all p = true) (hx : p x = true) : (l.set n x).all p = true := by
  rw [List.all_eq_true] at hl ⊢
  intro y hy
  rcases List.mem_or_eq_of_mem_set hy with h | h
  · exact hl y h
  · subst h
    exact hx

/-- A literal value of the input fragment is output-closed. -/
theorem c2Tok_val_closed (a : String) (A : List String) (f : Nat) (v : Val)
    (h : c2Tok a f (Token.tval v) = true) : outClosedF A f (Token.tval v) = true := by
  cases f with
  | zero => simp [c2Tok] at h
  | succ f2 => rfl

/-- mapM over Except maps a list satisfying p to a list satisfying q when
the function does so elementwise. -/
theorem exceptMapM_all {A B : Type} (p : A → Bool) (q : B → Bool)
    (g : A → Except String B)
    (hg : ∀ x, p x = true → ∀ y, g x = .ok y → q y = true) :
    ∀ (l : List A) (out : List B), l.all p = true → l.mapM g = .ok out →
      out.all q = true := by
  intro l
  induction l with
  | nil =>
    intro out hl h
    rw [show List.mapM g [] = pure [] from rfl] at h
    simp only [pure, Except.pure, Except.ok.injEq] at h
    subst h
    rfl
  | cons t ts ih =>
    intro out hl h
    simp only [List.all_cons, Bool.and_eq_true] at hl
    rw [List.mapM_cons] at h
    rcases hgt : g t with e | b
    · rw [hgt] at h
      simp only [bind, Except.bind] at h
      exact Except.noConfusion h
    · rw [hgt] at h
      simp only [bind, Except.bind] at h
      rcases hrest : List.mapM g ts with e2 | bs
      · rw [hrest] at h
        exact Except.noConfusion h
      · rw [hrest] at h
        simp only [pure, Except.pure, Except.ok.injEq] at h
        subst h
        simp only [List.all_cons, Bool.and_eq_true]
        exact ⟨hg t hl.1 b hgt, ih bs hl.2 hrest⟩

/-- The stream walker preserves reference closure and index alignment over
the input fragment: every token it appends is closed (nested streams
included, by the recursion hypothesis), and the output has one token per
input token, the empty-IN-list splices included. -/
theorem gttsGoC2 (env : Env) (a : String)
    (hcomb : ∀ pr ∈ env.combined, (splitOnDot pr.2).getLastD "" = a)
    (f : Nat)
    (recur : List Token → Option RefLink → Except String (List Token))
    (hrec : ∀ ts out2, ts.all (c2Tok a f) = true → recur ts none = .ok out2 →
        out2.all (outClosedF [a] f) = true ∧ out2.length = ts.length)
    (stream : List Token) (hstream : stream.all (c2Tok a (Nat.succ f)) = true) :
    ∀ (rem i : Nat) (acc out : List Token),
      acc.all (outClosedF [a] (Nat.succ f)) = true → acc.length = i →
      i ≤ stream.length →
      gttsGo env recur f stream none rem i acc = .ok out →
      out.all (outClosedF [a] (Nat.succ f)) = true ∧ out.length = stream.length := by
  intro rem
  induction rem with
  | zero =>
    intro i acc out hacc hlen hile hok
    simp only [gttsGo] at hok
    exact Except.noConfusion hok
  | succ m ih =>
    intro i acc out hacc hlen hile hok
    rcases hget : stream.get? i with _ | tok
    · simp only [gttsGo, hget, pure, Except.pure, Except.ok.injEq] at hok
      subst hok
      have hge : stream.length ≤ i := List.get?_eq_none.mp hget
      exact ⟨hacc, by omega⟩
    · have htok : c2Tok a (Nat.succ f) tok = true :=
        List.all_eq_true.mp hstream tok (List.get?_mem hget)
      have hilt : i < stream.length := by
        rcases List.get?_eq_some.mp hget with ⟨h, _⟩
        exact h
      rcases tok with s | v | ⟨p, mm⟩ | ts | ts | ⟨fn, args⟩ | ssub
      case tval =>
        simp only [gttsGo, hget, Option.isSome_none, Bool.and_false, Bool.false_eq_true,
          if_false, isStructured, Bool.false_and] at hok
        exact ih (i + 1) (acc ++ [Token.tval v]) out
          (by simp [List.all_append, hacc, outClosedF]) (by simp [hlen]) (by omega) hok
      case str =>
        simp only [gttsGo, hget] at hok
        split at hok
        · exact Except.noConfusion hok
        · rename_i ts1 heq
          exact Token.noConfusion heq
        · simp only [Option.isSome_none, Bool.and_false, Bool.false_eq_true, if_false,
            isStructured, Bool.false_and] at hok
          exact ih (i + 1) (acc ++ [Token.str s]) out
            (by simp [List.all_append, hacc, outClosedF]) (by simp [hlen]) (by omega) hok
      case tselect =>
        simp [c2Tok] at htok
      case tlist =>
        rcases ts with _ | ⟨t0, ts2⟩
        · -- the empty IN list: splice rewriting
          simp only [gttsGo, hget, List.isEmpty_nil, if_true] at hok
          split at hok
          · -- preceded (two back) by not
            rename_i hc1
            by_cases hi2 : 2 ≤ i
            · exact ih (i + 1)
                (jsSplice acc ((i : Int) - 2) 2
                  [Token.str "is", Token.str "not", Token.str "null"]) out
                (jsSplice_all _ acc _ _ _ hacc (by rfl))
                (by rw [jsSplice_len_not acc i
                    [Token.str "is", Token.str "not", Token.str "null"] hlen hi2 rfl])
                (by omega) hok
            · rw [jsSlice_win_short stream i hilt (by omega)] at hc1
              simp at hc1
              exact absurd hc1 (by decide)
          · rename_i hc1
            split at hok
            · -- directly preceded by in
              rename_i hc2
              by_cases hi2 : 2 ≤ i
              · exact ih (i + 1)
                  (jsSplice acc ((i : Int) - 1) 1
                    [Token.str "=", Token.tval Val.vnull]) out
                  (jsSplice_all _ acc _ _ _ hacc (by rfl))
                  (by rw [jsSplice_len_in acc i
                      [Token.str "=", Token.tval Val.vnull] hlen hi2 rfl])
                  (by omega) hok
              · rw [jsSlice_win_short stream i hilt (by omega)] at hc2
                simp at hc2
                exact absurd hc2 (by decide)
            · -- passthrough
              exact ih (i + 1) (acc ++ [Token.tlist []]) out
                (by simp [List.all_append, hacc, outClosedF]) (by simp [hlen])
                (by omega) hok
        · -- a nonempty nested list: recur on the elements
          rcases hsub : recur (t0 :: ts2) none with e | sub
          · simp only [gttsGo, hget, List.isEmpty_cons, Bool.false_eq_true, if_false,
              hsub, bind, Except.bind] at hok
            exact Except.noConfusion hok
          · simp only [gttsGo, hget, List.isEmpty_cons, Bool.false_eq_true, if_false,
              hsub, bind, Except.bind] at hok
            have hsubc := hrec (t0 :: ts2) sub (by simpa [c2Tok] using htok) hsub
            exact ih (i + 1) (acc ++ [Token.tlist sub]) out
              (by simp [List.all_append, hacc, outClosedF, hsubc.1])
              (by simp [hlen]) (by omega) hok
      case txpr =>
        rcases hsub : recur ts none with e | sub
        · simp only [gttsGo, hget, Option.isSome_none, Bool.and_false, Bool.false_eq_true,
            if_false, isStructured, Bool.false_and, hsub, bind, Except.bind] at hok
          exact Except.noConfusion hok
        · simp only [gttsGo, hget, Option.isSome_none, Bool.and_false, Bool.false_eq_true,
            if_false, isStructured, Bool.false_and, hsub, bind, Except.bind] at hok
          have hsubc := hrec ts sub (by simpa [c2Tok] using htok) hsub
          exact ih (i + 1) (acc ++ [Token.txpr sub]) out
            (by simp [List.all_append, hacc, outClosedF, hsubc.1])
            (by simp [hlen]) (by omega) hok
      case tfunc =>
        simp only [gttsGo, hget, Option.isSome_none, Bool.and_false, Bool.false_eq_true,
          if_false, isStructured, Bool.false_and] at hok
        rcases hargs : args.mapM (fun t =>
            match t with
            | Token.tval v =>
              if !v.truthy then do
                let r ← recur [t] none
                pure (r.headD t)
              else pure t
            | _ => do
              let r ← recur [t] none
              pure (r.headD t)) with e | args2
        · rw [hargs] at hok
          simp only [bind, Except.bind] at hok
          exact Except.noConfusion hok
        · rw [hargs] at hok
          simp only [bind, Except.bind] at hok
          have hargc : args2.all (outClosedF [a] f) = true := by
            refine exceptMapM_all (c2Tok a f) (outClosedF [a] f) _ ?_ args args2
              (by simpa [c2Tok] using htok) hargs
            intro t hp u hgt
            have hcommon : ∀ (hgt2 : (do
                let r ← recur [t] none
                pure (r.headD t) : Except String Token) = .ok u),
                outClosedF [a] f u = true := by
              intro hgt2
              rcases hr : recur [t] none with e2 | r
              · rw [hr] at hgt2
                simp only [bind, Except.bind] at hgt2
                exact Except.noConfusion hgt2
              · rw [hr] at hgt2
                simp only [bind, Except.bind, pure, Except.pure, Except.ok.injEq] at hgt2
                have hrc := hrec [t] r (by simp [hp]) hr
                rcases r with _ | ⟨u0, rr⟩
                · simp at hrc
                · rcases rr with _ | ⟨u1, rr2⟩
                  · subst hgt2
                    simpa using hrc.1
                  · simp at hrc
            rcases t with s | v | pm | l1 | l2 | f1 | s1
            case tval =>
              have hgt2 : (if !v.truthy then (do
                  let r ← recur [Token.tval v] none
                  pure (r.headD (Token.tval v)) : Except String Token)
                  else pure (Token.tval v)) = .ok u := hgt
              rcases htr : v.truthy with _ | _
              · rw [htr] at hgt2
                simp only [Bool.not_false, if_true] at hgt2
                exact hcommon hgt2
              · rw [htr] at hgt2
                simp only [Bool.not_true, Bool.false_eq_true, if_false, pure,
                  Except.pure, Except.ok.injEq] at hgt2
                subst hgt2
                exact c2Tok_val_closed a [a] f v hp
            all_goals exact hcommon hgt
          exact ih (i + 1) (acc ++ [Token.tfunc fn args2]) out
            (by simp [List.all_append, hacc, outClosedF, hargc])
            (by simp [hlen]) (by omega) hok
      case tref =>
        by_cases hpar : mm.param = true
        · simp only [gttsGo, hget, Option.isSome_none, Bool.and_false, Bool.false_eq_true,
            if_false, hpar, if_true, ite_true] at hok
          exact ih (i + 1) (acc ++ [Token.tref p mm]) out
            (by simp [List.all_append, hacc, outClosedF, hpar]) (by simp [hlen])
            (by omega) hok
        · have hpar2 : mm.param = false := Bool.eq_false_iff.mpr hpar
          by_cases hps : (pseudoElem? ((p.headD (Step.plain "")).id)).isSome = true
          · simp only [gttsGo, hget, Option.isSome_none, Bool.and_false,
              Bool.false_eq_true, if_false, hpar2, hps, if_true, ite_true,
              ite_false] at hok
            exact ih (i + 1) (acc ++ [Token.tref p mm]) out
              (by
                simp [List.all_append, hacc, outClosedF]
                exact Or.inl (Or.inl (by simpa using hps))) (by simp [hlen])
              (by omega) hok
          · have hps2 : (pseudoElem? ((p.headD (Step.plain "")).id)).isSome = false :=
              Bool.eq_false_iff.mpr hps
            simp only [c2Tok, hpar2, hps2, Bool.false_or] at htok
            rcases hd : ((mm.refLinks.bind List.getLast?).map RefLink.definition)
              with _ | d
            · rw [hd] at htok
              simp at htok
            · rw [hd] at htok
              simp only [Bool.and_eq_true] at htok
              have hjr2 : mm.isJoinRelevant = false := by
                rcases hjr0 : mm.isJoinRelevant with _ | _
                · rfl
                · simp [hjr0] at htok
              have helem : d.elements.isEmpty = true := by
                rcases h0 : d.elements.isEmpty with _ | _
                · simp [h0] at htok
                · rfl
              have hfk : d.fks = none := by
                rcases h0 : d.fks with _ | ks
                · rfl
                · simp [h0] at htok
              have htg : d.target = none := by
                rcases h0 : d.target with _ | t
                · rfl
                · simp [h0] at htok
              have hent : (!((((mm.refLinks.getD []).headD default).definition.kind == "entity"))
                  || ((p.headD (Step.plain "")).id == a)) = true := by
                have h2 := htok.2
                simpa using h2
              rcases hsrc : getQuerySourceName env
                  { path := p, refLinks := mm.refLinks.getD [],
                    isJoinRelevant := false } none with e | ta
              · simp only [gttsGo, hget, Option.isSome_none, Bool.and_false,
                  Bool.false_eq_true, if_false, hpar2, hps2, ite_false, hd, helem,
                  hfk, htg, hjr2, Bool.not_true, Bool.or_false,
                  Bool.false_and, isStructured, hsrc,
                  bind, Except.bind] at hok
                exact Except.noConfusion hok
              · have hta : ta = a :=
                  gqsn_c2 env a hcomb
                    { path := p, refLinks := mm.refLinks.getD [],
                      isJoinRelevant := false } rfl hent ta hsrc
                subst hta
                simp only [gttsGo, hget, Option.isSome_none, Bool.and_false,
                  Bool.false_eq_true, if_false, hpar2, hps2, ite_false, hd, helem,
                  hfk, htg, hjr2, Bool.not_true, Bool.or_false,
                  Bool.false_and, isStructured, hsrc,
                  bind, Except.bind] at hok
                exact ih (i + 1)
                  (acc ++ [Token.tref
                    ([ta, mm.flatName.getD "undefined"].map Step.plain) mm]) out
                  (by simp [List.all_append, hacc, outClosedF, Step.id])
                  (by simp [hlen]) (by omega) hok

/-- getTransformedTokenStream on the input fragment (no base link)
produces a closed token stream of the same length, by fuel induction with
the walker lemma. -/
theorem gtts_c2 (env : Env) (a : String)
    (hcomb : ∀ pr ∈ env.combined, (splitOnDot pr.2).getLastD "" = a) :
    ∀ (fuel : Nat) (stream out : List Token), stream.all (c2Tok a fuel) = true →
      gtts env fuel stream none = .ok out →
      out.all (outClosedF [a] fuel) = true ∧ out.length = stream.length := by
  intro fuel
  induction fuel with
  | zero =>
    intro stream out h hok
    simp only [gtts] at hok
    exact Except.noConfusion hok
  | succ f ih =>
    intro stream out hstream hok
    have h0 : gtts env (Nat.succ f) stream none
        = gttsGo env (gtts env f) f stream none (stream.length + 1) 0 [] := rfl
    rw [h0] at hok
    exact gttsGoC2 env a hcomb f (gtts env f)
      (fun ts out2 hts hok2 => ih ts out2 hts hok2) stream hstream
      (stream.length + 1) 0 [] out rfl rfl (by omega) hok

/-- Inversion of a successful Except bind. -/
theorem bind_ok_inv {A B : Type} (x : Except String A) (g : A → Except String B)
    (b : B) (h : bind x g = .ok b) : ∃ a2, x = .ok a2 ∧ g a2 = .ok b := by
  rcases hx : x with e | a2
  · rw [hx] at h
    simp only [bind, Except.bind] at h
    exact Except.noConfusion h
  · rw [hx] at h
    simp only [bind, Except.bind] at h
    exact ⟨a2, rfl, h⟩

/-- Every flat column getFlatColumnsFor produces under a nonempty table
alias has a two-element path rooted in that alias, over all recursion
branches (structures, managed associations and scalar leaves). -/
theorem gfcf_paths (env : Env) :
    ∀ (fuel : Nat) (col : FCol) (bn ca ta : String) (csn : List String)
      (ex repl : List Repl) (cols : List FlatCol),
      ta ≠ "" →
      getFlatColumnsFor env fuel col bn ca ta csn ex repl = .ok cols →
      ∀ fc ∈ cols, ∃ x, fc.path = [ta, x] := by
  intro fuel
  induction fuel with
  | zero =>
    intro col bn ca ta csn ex repl cols hta hok
    simp only [getFlatColumnsFor] at hok
    exact Except.noConfusion hok
  | succ f ihf =>
    intro col bn ca ta csn ex repl cols hta hok
    unfold getFlatColumnsFor at hok
    generalize hE : (match col.refLinks with
      | some ls => ((ls.getLast?).map RefLink.definition).getD col.element
      | none => col.element) = e0 at hok
    rcases hoc : e0.onCond.isSome with _ | _
    · rcases hv : e0.virt with _ | _
      · rcases hjr : col.isJoinRelevant with _ | _
        · rcases hfn : decide (col.flatName ≠ "") with _ | _
          · -- default element selection
            simp only [hoc, hv, hjr, hfn, Bool.false_eq_true, if_false,
              Bool.not_false, Bool.true_and, Bool.and_false] at hok
            obtain ⟨y, hbig, hcont⟩ := bind_ok_inv _ _ _ hok
            try dsimp only [] at hcont
            rcases hex : (getReplacement y.1 ex).isSome with _ | _
            · rcases hrepl : (getReplacement y.1 repl).isSome with _ | _
              · simp only [hex, hrepl, Bool.false_eq_true, if_false] at hcont
                rcases hfks2 : y.1.fks with _ | keys
                · simp only [hfks2] at hcont
                  rcases hne : y.1.elements.isEmpty with _ | _
                  · simp only [hne, Bool.not_false, if_true] at hcont
                    refine exceptFoldlM_inv
                      (fun acc => ∀ fc ∈ acc, ∃ x, fc.path = [ta, x])
                      _ _ ?_ [] cols (by intro fc hfc; simp at hfc) hcont
                    intro acc p hP hmem acc2 hstep
                    try dsimp only [] at hstep
                    obtain ⟨sub, hsub, hpure⟩ := bind_ok_inv _ _ _ hstep
                    simp only [pure, Except.pure, Except.ok.injEq] at hpure
                    subst hpure
                    intro fc hfc
                    rcases List.mem_append.mp hfc with h | h
                    · exact hP fc h
                    · exact ihf _ _ _ ta _ ex repl sub hta hsub fc h
                  · simp only [hne, Bool.not_true, Bool.false_eq_true, if_false, pure,
                      Except.pure, Except.ok.injEq] at hcont
                    subst hcont
                    intro fc hfc
                    simp at hfc
                    subst hfc
                    first
                    | (rw [if_pos hta]
                       exact ⟨_, rfl⟩)
                    | (rw [if_neg hta]
                       exact ⟨_, rfl⟩)
                · simp only [hfks2] at hcont
                  refine exceptFoldlM_inv (fun acc => ∀ fc ∈ acc, ∃ x, fc.path = [ta, x])
                    _ keys ?_ [] cols (by intro fc hfc; simp at hfc) hcont
                  intro acc fk hP hmem acc2 hstep
                  try dsimp only [] at hstep
                  rcases hgel : getElementForRef env fk.ref (y.1.target.bind env.lookupDef)
                    with _ | fkElement
                  · simp only [hgel] at hstep
                    exact Except.noConfusion hstep
                  · simp only [hgel] at hstep
                    rcases hne2 : fkElement.elements.isEmpty with _ | _
                    · simp only [hne2, Bool.not_false, if_true] at hstep
                      refine exceptFoldlM_inv
                        (fun acc3 => ∀ fc ∈ acc3, ∃ x, fc.path = [ta, x])
                        _ _ ?_ acc acc2 hP hstep
                      intro acc3 p hP3 hmem3 acc4 hstep3
                      try dsimp only [] at hstep3
                      obtain ⟨sub, hsub, hpure⟩ := bind_ok_inv _ _ _ hstep3
                      simp only [pure, Except.pure, Except.ok.injEq] at hpure
                      subst hpure
                      intro fc hfc
                      rcases List.mem_append.mp hfc with h | h
                      · exact hP3 fc h
                      · exact ihf _ _ _ ta _ ex repl sub hta hsub fc h
                    · simp only [hne2, Bool.not_true, Bool.false_eq_true, if_false] at hstep
                      rcases hassoc : fkElement.isAssociation with _ | _
                      · simp only [hassoc, Bool.false_eq_true, if_false, pure, Except.pure,
                          Except.ok.injEq] at hstep
                        subst hstep
                        intro fc hfc
                        rcases List.mem_append.mp hfc with h | h
                        · exact hP fc h
                        · simp at h
                          subst h
                          first
                          | (rw [if_pos hta]
                             split <;> exact ⟨_, rfl⟩)
                          | (rw [if_neg hta]
                             split <;> exact ⟨_, rfl⟩)
                      · simp only [hassoc, if_true] at hstep
                        obtain ⟨sub, hsub, hpure⟩ := bind_ok_inv _ _ _ hstep
                        simp only [pure, Except.pure, Except.ok.injEq] at hpure
                        subst hpure
                        intro fc hfc
                        rcases List.mem_append.mp hfc with h | h
                        · exact hP fc h
                        · exact ihf _ _ _ ta _ ex repl sub hta hsub fc h
              · simp only [hex, hrepl, Bool.false_eq_true, if_false, if_true] at hcont
                exact Except.noConfusion hcont
            · simp only [hex, if_true, pure, Except.pure, Except.ok.injEq] at hcont
              subst hcont
              intro fc hfc
              simp at hfc
          · -- flat-name element selection
            simp only [hoc, hv, hjr, hfn, Bool.false_eq_true, if_false,
              Bool.not_false, Bool.true_and, Bool.and_true, if_true] at hok
            obtain ⟨y, hbig, hcont⟩ := bind_ok_inv _ _ _ hok
            try dsimp only [] at hcont
            rcases hex : (getReplacement y.1 ex).isSome with _ | _
            · rcases hrepl : (getReplacement y.1 repl).isSome with _ | _
              · simp only [hex, hrepl, Bool.false_eq_true, if_false] at hcont
                rcases hfks2 : y.1.fks with _ | keys
                · simp only [hfks2] at hcont
                  rcases hne : y.1.elements.isEmpty with _ | _
                  · simp only [hne, Bool.not_false, if_true] at hcont
                    refine exceptFoldlM_inv
                      (fun acc => ∀ fc ∈ acc, ∃ x, fc.path = [ta, x])
                      _ _ ?_ [] cols (by intro fc hfc; simp at hfc) hcont
                    intro acc p hP hmem acc2 hstep
                    try dsimp only [] at hstep
                    obtain ⟨sub, hsub, hpure⟩ := bind_ok_inv _ _ _ hstep
                    simp only [pure, Except.pure, Except.ok.injEq] at hpure
                    subst hpure
                    intro fc hfc
                    rcases List.mem_append.mp hfc with h | h
                    · exact hP fc h
                    · exact ihf _ _ _ ta _ ex repl sub hta hsub fc h
                  · simp only [hne, Bool.not_true, Bool.false_eq_true, if_false, pure,
                      Except.pure, Except.ok.injEq] at hcont
                    subst hcont
                    intro fc hfc
                    simp at hfc
                    subst hfc
                    first
                    | (rw [if_pos hta]
                       exact ⟨_, rfl⟩)
                    | (rw [if_neg hta]
                       exact ⟨_, rfl⟩)
                · simp only [hfks2] at hcont
                  refine exceptFoldlM_inv (fun acc => ∀ fc ∈ acc, ∃ x, fc.path = [ta, x])
                    _ keys ?_ [] cols (by intro fc hfc; simp at hfc) hcont
                  intro acc fk hP hmem acc2 hstep
                  try dsimp only [] at hstep
                  rcases hgel : getElementForRef env fk.ref (y.1.target.bind env.lookupDef)
                    with _ | fkElement
                  · simp only [hgel] at hstep
                    exact Except.noConfusion hstep
                  · simp only [hgel] at hstep
                    rcases hne2 : fkElement.elements.isEmpty with _ | _
                    · simp only [hne2, Bool.not_false, if_true] at hstep
                      refine exceptFoldlM_inv
                        (fun acc3 => ∀ fc ∈ acc3, ∃ x, fc.path = [ta, x])
                        _ _ ?_ acc acc2 hP hstep
                      intro acc3 p hP3 hmem3 acc4 hstep3
                      try dsimp only [] at hstep3
                      obtain ⟨sub, hsub, hpure⟩ := bind_ok_inv _ _ _ hstep3
                      simp only [pure, Except.pure, Except.ok.injEq] at hpure
                      subst hpure
                      intro fc hfc
                      rcases List.mem_append.mp hfc with h | h
                      · exact hP3 fc h
                      · exact ihf _ _ _ ta _ ex repl sub hta hsub fc h
                    · simp only [hne2, Bool.not_true, Bool.false_eq_true, if_false] at hstep
                      rcases hassoc : fkElement.isAssociation with _ | _
                      · simp only [hassoc, Bool.false_eq_true, if_false, pure, Except.pure,
                          Except.ok.injEq] at hstep
                        subst hstep
                        intro fc hfc
                        rcases List.mem_append.mp hfc with h | h
                        · exact hP fc h
                        · simp at h
                          subst h
                          first
                          | (rw [if_pos hta]
                             split <;> exact ⟨_, rfl⟩)
                          | (rw [if_neg hta]
                             split <;> exact ⟨_, rfl⟩)
                      · simp only [hassoc, if_true] at hstep
                        obtain ⟨sub, hsub, hpure⟩ := bind_ok_inv _ _ _ hstep
                        simp only [pure, Except.pure, Except.ok.injEq] at hpure
                        subst hpure
                        intro fc hfc
                        rcases List.mem_append.mp hfc with h | h
                        · exact hP fc h
                        · exact ihf _ _ _ ta _ ex repl sub hta hsub fc h
              · simp only [hex, hrepl, Bool.false_eq_true, if_false, if_true] at hcont
                exact Except.noConfusion hcont
            · simp only [hex, if_true, pure, Except.pure, Except.ok.injEq] at hcont
              subst hcont
              intro fc hfc
              simp at hfc
        · -- the join relevant element selection
          simp only [hoc, hv, hjr, Bool.false_eq_true, if_false,
            Bool.not_true, Bool.false_and, if_true] at hok
          rcases hfind : List.find? (fun l => l.definition.isAssociation)
              (col.refLinks.getD []).reverse with _ | leafAssoc
          · simp only [hfind, bind, Except.bind] at hok
            exact Except.noConfusion hok
          · simp only [hfind] at hok
            rcases hfks : leafAssoc.definition.foreignKeys with _ | fkNames
            · simp only [hfks] at hok
              obtain ⟨y, hbig, hcont⟩ := bind_ok_inv _ _ _ hok
              try dsimp only [] at hcont
              rcases hex : (getReplacement y.1 ex).isSome with _ | _
              · rcases hrepl : (getReplacement y.1 repl).isSome with _ | _
                · simp only [hex, hrepl, Bool.false_eq_true, if_false] at hcont
                  rcases hfks2 : y.1.fks with _ | keys
                  · simp only [hfks2] at hcont
                    rcases hne : y.1.elements.isEmpty with _ | _
                    · simp only [hne, Bool.not_false, if_true] at hcont
                      refine exceptFoldlM_inv
                        (fun acc => ∀ fc ∈ acc, ∃ x, fc.path = [ta, x])
                        _ _ ?_ [] cols (by intro fc hfc; simp at hfc) hcont
                      intro acc p hP hmem acc2 hstep
                      try dsimp only [] at hstep
                      obtain ⟨sub, hsub, hpure⟩ := bind_ok_inv _ _ _ hstep
                      simp only [pure, Except.pure, Except.ok.injEq] at hpure
                      subst hpure
                      intro fc hfc
                      rcases List.mem_append.mp hfc with h | h
                      · exact hP fc h
                      · exact ihf _ _ _ ta _ ex repl sub hta hsub fc h
                    · simp only [hne, Bool.not_true, Bool.false_eq_true, if_false, pure,
                        Except.pure, Except.ok.injEq] at hcont
                      subst hcont
                      intro fc hfc
                      simp at hfc
                      subst hfc
                      first
                      | (rw [if_pos hta]
                         exact ⟨_, rfl⟩)
                      | (rw [if_neg hta]
                         exact ⟨_, rfl⟩)
                  · simp only [hfks2] at hcont
                    refine exceptFoldlM_inv (fun acc => ∀ fc ∈ acc, ∃ x, fc.path = [ta, x])
                      _ keys ?_ [] cols (by intro fc hfc; simp at hfc) hcont
                    intro acc fk hP hmem acc2 hstep
                    try dsimp only [] at hstep
                    rcases hgel : getElementForRef env fk.ref (y.1.target.bind env.lookupDef)
                      with _ | fkElement
                    · simp only [hgel] at hstep
                      exact Except.noConfusion hstep
                    · simp only [hgel] at hstep
                      rcases hne2 : fkElement.elements.isEmpty with _ | _
                      · simp only [hne2, Bool.not_false, if_true] at hstep
                        refine exceptFoldlM_inv
                          (fun acc3 => ∀ fc ∈ acc3, ∃ x, fc.path = [ta, x])
                          _ _ ?_ acc acc2 hP hstep
                        intro acc3 p hP3 hmem3 acc4 hstep3
                        try dsimp only [] at hstep3
                        obtain ⟨sub, hsub, hpure⟩ := bind_ok_inv _ _ _ hstep3
                        simp only [pure, Except.pure, Except.ok.injEq] at hpure
                        subst hpure
                        intro fc hfc
                        rcases List.mem_append.mp hfc with h | h
                        · exact hP3 fc h
                        · exact ihf _ _ _ ta _ ex repl sub hta hsub fc h
                      · simp only [hne2, Bool.not_true, Bool.false_eq_true, if_false] at hstep
                        rcases hassoc : fkElement.isAssociation with _ | _
                        · simp only [hassoc, Bool.false_eq_true, if_false, pure, Except.pure,
                            Except.ok.injEq] at hstep
                          subst hstep
                          intro fc hfc
                          rcases List.mem_append.mp hfc with h | h
                          · exact hP fc h
                          · simp at h
                            subst h
                            first
                            | (rw [if_pos hta]
                               split <;> exact ⟨_, rfl⟩)
                            | (rw [if_neg hta]
                               split <;> exact ⟨_, rfl⟩)
                        · simp only [hassoc, if_true] at hstep
                          obtain ⟨sub, hsub, hpure⟩ := bind_ok_inv _ _ _ hstep
                          simp only [pure, Except.pure, Except.ok.injEq] at hpure
                          subst hpure
                          intro fc hfc
                          rcases List.mem_append.mp hfc with h | h
                          · exact hP fc h
                          · exact ihf _ _ _ ta _ ex repl sub hta hsub fc h
                · simp only [hex, hrepl, Bool.false_eq_true, if_false, if_true] at hcont
                  exact Except.noConfusion hcont
              · simp only [hex, if_true, pure, Except.pure, Except.ok.injEq] at hcont
                subst hcont
                intro fc hfc
                simp at hfc
            · simp only [hfks] at hok
              rcases hcontains : fkNames.contains
                  (((col.refLinks.getD []).getLast?.getD default).alias') with _ | _
              · simp only [hcontains, Bool.false_eq_true, if_false] at hok
                obtain ⟨y, hbig, hcont⟩ := bind_ok_inv _ _ _ hok
                try dsimp only [] at hcont
                rcases hex : (getReplacement y.1 ex).isSome with _ | _
                · rcases hrepl : (getReplacement y.1 repl).isSome with _ | _
                  · simp only [hex, hrepl, Bool.false_eq_true, if_false] at hcont
                    rcases hfks2 : y.1.fks with _ | keys
                    · simp only [hfks2] at hcont
                      rcases hne : y.1.elements.isEmpty with _ | _
                      · simp only [hne, Bool.not_false, if_true] at hcont
                        refine exceptFoldlM_inv
                          (fun acc => ∀ fc ∈ acc, ∃ x, fc.path = [ta, x])
                          _ _ ?_ [] cols (by intro fc hfc; simp at hfc) hcont
                        intro acc p hP hmem acc2 hstep
                        try dsimp only [] at hstep
                        obtain ⟨sub, hsub, hpure⟩ := bind_ok_inv _ _ _ hstep
                        simp only [pure, Except.pure, Except.ok.injEq] at hpure
                        subst hpure
                        intro fc hfc
                        rcases List.mem_append.mp hfc with h | h
                        · exact hP fc h
                        · exact ihf _ _ _ ta _ ex repl sub hta hsub fc h
                      · simp only [hne, Bool.not_true, Bool.false_eq_true, if_false, pure,
                          Except.pure, Except.ok.injEq] at hcont
                        subst hcont
                        intro fc hfc
                        simp at hfc
                        subst hfc
                        first
                        | (rw [if_pos hta]
                           exact ⟨_, rfl⟩)
                        | (rw [if_neg hta]
                           exact ⟨_, rfl⟩)
                    · simp only [hfks2] at hcont
                      refine exceptFoldlM_inv (fun acc => ∀ fc ∈ acc, ∃ x, fc.path = [ta, x])
                        _ keys ?_ [] cols (by intro fc hfc; simp at hfc) hcont
                      intro acc fk hP hmem acc2 hstep
                      try dsimp only [] at hstep
                      rcases hgel : getElementForRef env fk.ref (y.1.target.bind env.lookupDef)
                        with _ | fkElement
                      · simp only [hgel] at hstep
                        exact Except.noConfusion hstep
                      · simp only [hgel] at hstep
                        rcases hne2 : fkElement.elements.isEmpty with _ | _
                        · simp only [hne2, Bool.not_false, if_true] at hstep
                          refine exceptFoldlM_inv
                            (fun acc3 => ∀ fc ∈ acc3, ∃ x, fc.path = [ta, x])
                            _ _ ?_ acc acc2 hP hstep
                          intro acc3 p hP3 hmem3 acc4 hstep3
                          try dsimp only [] at hstep3
                          obtain ⟨sub, hsub, hpure⟩ := bind_ok_inv _ _ _ hstep3
                          simp only [pure, Except.pure, Except.ok.injEq] at hpure
                          subst hpure
                          intro fc hfc
                          rcases List.mem_append.mp hfc with h | h
                          · exact hP3 fc h
                          · exact ihf _ _ _ ta _ ex repl sub hta hsub fc h
                        · simp only [hne2, Bool.not_true, Bool.false_eq_true, if_false] at hstep
                          rcases hassoc : fkElement.isAssociation with _ | _
                          · simp only [hassoc, Bool.false_eq_true, if_false, pure, Except.pure,
                              Except.ok.injEq] at hstep
                            subst hstep
                            intro fc hfc
                            rcases List.mem_append.mp hfc with h | h
                            · exact hP fc h
                            · simp at h
                              subst h
                              first
                              | (rw [if_pos hta]
                                 split <;> exact ⟨_, rfl⟩)
                              | (rw [if_neg hta]
                                 split <;> exact ⟨_, rfl⟩)
                          · simp only [hassoc, if_true] at hstep
                            obtain ⟨sub, hsub, hpure⟩ := bind_ok_inv _ _ _ hstep
                            simp only [pure, Except.pure, Except.ok.injEq] at hpure
                            subst hpure
                            intro fc hfc
                            rcases List.mem_append.mp hfc with h | h
                            · exact hP fc h
                            · exact ihf _ _ _ ta _ ex repl sub hta hsub fc h
                  · simp only [hex, hrepl, Bool.false_eq_true, if_false, if_true] at hcont
                    exact Except.noConfusion hcont
                · simp only [hex, if_true, pure, Except.pure, Except.ok.injEq] at hcont
                  subst hcont
                  intro fc hfc
                  simp at hfc
              · simp only [hcontains, if_true] at hok
                obtain ⟨y, hbig, hcont⟩ := bind_ok_inv _ _ _ hok
                try dsimp only [] at hcont
                rcases hex : (getReplacement y.1 ex).isSome with _ | _
                · rcases hrepl : (getReplacement y.1 repl).isSome with _ | _
                  · simp only [hex, hrepl, Bool.false_eq_true, if_false] at hcont
                    rcases hfks2 : y.1.fks with _ | keys
                    · simp only [hfks2] at hcont
                      rcases hne : y.1.elements.isEmpty with _ | _
                      · simp only [hne, Bool.not_false, if_true] at hcont
                        refine exceptFoldlM_inv
                          (fun acc => ∀ fc ∈ acc, ∃ x, fc.path = [ta, x])
                          _ _ ?_ [] cols (by intro fc hfc; simp at hfc) hcont
                        intro acc p hP hmem acc2 hstep
                        try dsimp only [] at hstep
                        obtain ⟨sub, hsub, hpure⟩ := bind_ok_inv _ _ _ hstep
                        simp only [pure, Except.pure, Except.ok.injEq] at hpure
                        subst hpure
                        intro fc hfc
                        rcases List.mem_append.mp hfc with h | h
                        · exact hP fc h
                        · exact ihf _ _ _ ta _ ex repl sub hta hsub fc h
                      · simp only [hne, Bool.not_true, Bool.false_eq_true, if_false, pure,
                          Except.pure, Except.ok.injEq] at hcont
                        subst hcont
                        intro fc hfc
                        simp at hfc
                        subst hfc
                        first
                        | (rw [if_pos hta]
                           exact ⟨_, rfl⟩)
                        | (rw [if_neg hta]
                           exact ⟨_, rfl⟩)
                    · simp only [hfks2] at hcont
                      refine exceptFoldlM_inv (fun acc => ∀ fc ∈ acc, ∃ x, fc.path = [ta, x])
                        _ keys ?_ [] cols (by intro fc hfc; simp at hfc) hcont
                      intro acc fk hP hmem acc2 hstep
                      try dsimp only [] at hstep
                      rcases hgel : getElementForRef env fk.ref (y.1.target.bind env.lookupDef)
                        with _ | fkElement
                      · simp only [hgel] at hstep
                        exact Except.noConfusion hstep
                      · simp only [hgel] at hstep
                        rcases hne2 : fkElement.elements.isEmpty with _ | _
                        · simp only [hne2, Bool.not_false, if_true] at hstep
                          refine exceptFoldlM_inv
                            (fun acc3 => ∀ fc ∈ acc3, ∃ x, fc.path = [ta, x])
                            _ _ ?_ acc acc2 hP hstep
                          intro acc3 p hP3 hmem3 acc4 hstep3
                          try dsimp only [] at hstep3
                          obtain ⟨sub, hsub, hpure⟩ := bind_ok_inv _ _ _ hstep3
                          simp only [pure, Except.pure, Except.ok.injEq] at hpure
                          subst hpure
                          intro fc hfc
                          rcases List.mem_append.mp hfc with h | h
                          · exact hP3 fc h
                          · exact ihf _ _ _ ta _ ex repl sub hta hsub fc h
                        · simp only [hne2, Bool.not_true, Bool.false_eq_true, if_false] at hstep
                          rcases hassoc : fkElement.isAssociation with _ | _
                          · simp only [hassoc, Bool.false_eq_true, if_false, pure, Except.pure,
                              Except.ok.injEq] at hstep
                            subst hstep
                            intro fc hfc
                            rcases List.mem_append.mp hfc with h | h
                            · exact hP fc h
                            · simp at h
                              subst h
                              first
                              | (rw [if_pos hta]
                                 split <;> exact ⟨_, rfl⟩)
                              | (rw [if_neg hta]
                                 split <;> exact ⟨_, rfl⟩)
                          · simp only [hassoc, if_true] at hstep
                            obtain ⟨sub, hsub, hpure⟩ := bind_ok_inv _ _ _ hstep
                            simp only [pure, Except.pure, Except.ok.injEq] at hpure
                            subst hpure
                            intro fc hfc
                            rcases List.mem_append.mp hfc with h | h
                            · exact hP fc h
                            · exact ihf _ _ _ ta _ ex repl sub hta hsub fc h
                  · simp only [hex, hrepl, Bool.false_eq_true, if_false, if_true] at hcont
                    exact Except.noConfusion hcont
                · simp only [hex, if_true, pure, Except.pure, Except.ok.injEq] at hcont
                  subst hcont
                  intro fc hfc
                  simp at hfc
      · simp only [hoc, hv, Bool.false_eq_true, if_false, if_true, pure,
          Except.pure, Except.ok.injEq] at hok
        subst hok
        intro fc hfc
        simp at hfc
    · simp only [hoc, if_true, pure, Except.pure, Except.ok.injEq] at hok
      subst hok
      intro fc hfc
      simp at hfc

/-- The alias-deduplicating fold of getTransformedColumns preserves
closure. -/
theorem foldl_dedup_all (q : OColumn → Bool) :
    ∀ (l : List FlatCol) (acc : List OColumn), acc.all q = true →
      (∀ fc ∈ l, q fc.toOColumn = true) →
      (l.foldl (fun acc2 fc =>
        if fc.toOColumn.as.isSome && acc2.any (fun ins => ins.as == fc.toOColumn.as)
        then acc2 else acc2 ++ [fc.toOColumn]) acc).all q = true := by
  intro l
  induction l with
  | nil =>
    intro acc hacc _
    exact hacc
  | cons fc fcs ih =>
    intro acc hacc hl
    simp only [List.foldl_cons]
    split
    · exact ih acc hacc (fun x hx => hl x (List.mem_cons_of_mem fc hx))
    · exact ih (acc ++ [fc.toOColumn])
        (by simp [List.all_append, hacc, hl fc (List.mem_cons_self fc fcs)])
        (fun x hx => hl x (List.mem_cons_of_mem fc hx))

/-- A flat column with an alias-rooted two-step path is closed as an
output column. -/
theorem flatcol_closed (a : String) (fuel : Nat) (fc : FlatCol) (x : String)
    (hx : fc.path = [a, x]) : outColClosed [a] fuel fc.toOColumn = true := by
  simp [outColClosed, FlatCol.toOColumn, hx, Step.id]

/-- The dedup-or-append step on the accumulated output columns preserves
closure. -/
theorem dedup_step_all (a : String) (fuel : Nat) (acc : List OColumn)
    (tc : OColumn) (acc2 : List OColumn)
    (hP : acc.all (outColClosed [a] fuel) = true)
    (htc : outColClosed [a] fuel tc = true)
    (h : (match acc.findIdx? (fun t => t.dedupKey == tc.as) with
          | some idx => pure (acc.set idx tc)
          | none => pure (acc ++ [tc]) : Except String (List OColumn)) = .ok acc2) :
    acc2.all (outColClosed [a] fuel) = true := by
  rcases hidx : acc.findIdx? (fun t => t.dedupKey == tc.as) with _ | idx
  · simp only [hidx, pure, Except.pure, Except.ok.injEq] at h
    subst h
    simp [List.all_append, hP, htc]
  · simp only [hidx, pure, Except.pure, Except.ok.injEq] at h
    subst h
    exact all_set _ acc idx _ hP htc

/-- getTransformedColumns on the column fragment produces closed output
columns: ref columns flatten to alias-rooted two-step refs, pseudo and
parameter columns pass through under the exception, and xpr and func
columns are rewritten by the closed stream walker. -/
theorem gtc_c2 (env : Env) (a : String) (ha : a ≠ "")
    (hcomb : ∀ pr ∈ env.combined, (splitOnDot pr.2).getLastD "" = a)
    (fuel : Nat) (cols : List Column) (out : List OColumn)
    (hcols : cols.all (c2Col a fuel) = true)
    (hok : getTransformedColumns env fuel cols = .ok out) :
    out.all (outColClosed [a] fuel) = true := by
  unfold getTransformedColumns at hok
  obtain ⟨result, hfold, hrest⟩ := bind_ok_inv _ _ _ hok
  have hout : out = result := by
    try dsimp only [] at hrest
    split at hrest
    · split at hrest
      · simp only [pure, Except.pure, Except.ok.injEq] at hrest
        exact hrest.symm
      · exact Except.noConfusion hrest
    · simp only [pure, Except.pure, Except.ok.injEq] at hrest
      exact hrest.symm
  subst hout
  refine exceptFoldlM_inv (fun acc => acc.all (outColClosed [a] fuel) = true)
    _ cols ?_ [] out rfl hfold
  intro acc col hP hmem acc2 hstep
  have hcol : c2Col a fuel col = true := List.all_eq_true.mp hcols col hmem
  simp only [c2Col, Bool.and_eq_true, Bool.not_eq_true'] at hcol
  obtain ⟨⟨⟨⟨hexp, hinl⟩, hstar⟩, hsel⟩, hcol2⟩ := hcol
  dsimp only [] at hstep
  rw [hexp, hinl, hstar] at hstep
  simp only [Bool.false_eq_true, if_false] at hstep
  rcases href : col.ref with _ | path
  · -- a column without a ref: xpr, func or passthrough
    simp only [href] at hstep hcol2
    rw [hsel] at hstep
    simp only [Bool.false_eq_true, if_false] at hstep
    rcases hx : col.xprT with _ | x
    · simp only [hx] at hstep hcol2
      rcases hfn : col.funcName with _ | fnm
      · -- plain passthrough of a value column
        simp only [hfn] at hstep hcol2
        have hfa : col.funcArgs = none := Option.isNone_iff_eq_none.mp hcol2
        simp only [bind, Except.bind, pure, Except.pure] at hstep
        refine dedup_step_all a fuel acc _ acc2 hP ?_ hstep
        have hbase : outColClosed [a] fuel col.passthrough = true := by
          simp [outColClosed, Column.passthrough, href, hx, hfa]
        rcases has2 : col.as with _ | a2
        · exact hbase
        · simp only [outColClosed, Column.passthrough] at hbase ⊢
          exact hbase
      · simp only [hfn] at hstep hcol2
        rcases hfa : col.funcArgs with _ | args
        · -- function column without arguments
          simp only [hfa] at hstep
          simp only [bind, Except.bind, pure, Except.pure] at hstep
          refine dedup_step_all a fuel acc _ acc2 hP ?_ hstep
          have hbase : outColClosed [a] fuel
              ({ funcName := some fnm, funcArgs := none, as := some fnm } : OColumn)
                = true := by
            simp [outColClosed]
          rcases has2 : col.as with _ | a2
          · exact hbase
          · simp only [outColClosed] at hbase ⊢
            exact hbase
        · -- function column: arguments rewritten by the stream walker
          simp only [hfa] at hstep hcol2
          obtain ⟨t1, hgt, hcont2⟩ := bind_ok_inv _ _ _ hstep
          have hclosed := (gtts_c2 env a hcomb fuel args t1 hcol2 hgt).1
          refine dedup_step_all a fuel acc _ acc2 hP ?_ hcont2
          have hbase : outColClosed [a] fuel
              ({ funcName := some fnm, funcArgs := some t1, as := some fnm } : OColumn)
                = true := by
            simp [outColClosed, hclosed]
          rcases has2 : col.as with _ | a2
          · exact hbase
          · simp only [outColClosed] at hbase ⊢
            exact hbase
    · -- xpr column: the token stream rewritten by the walker
      simp only [hx] at hstep hcol2
      obtain ⟨t1, hgt, hcont2⟩ := bind_ok_inv _ _ _ hstep
      have hclosed := (gtts_c2 env a hcomb fuel x t1 hcol2 hgt).1
      refine dedup_step_all a fuel acc _ acc2 hP ?_ hcont2
      have hbase : outColClosed [a] fuel ({ xprT := some t1 } : OColumn) = true := by
        simp [outColClosed, hclosed]
      rcases has2 : col.as with _ | a2
      · exact hbase
      · simp only [outColClosed] at hbase ⊢
        exact hbase
  · -- a ref column
    simp only [href] at hstep hcol2
    have hab : (col.xprT.isNone && col.funcArgs.isNone) = true := by
      rcases h0 : (col.xprT.isNone && col.funcArgs.isNone) with _ | _
      · rw [h0] at hcol2
        simp at hcol2
      · rfl
    have hdisj : ((pseudoElem? ((path.headD (Step.plain "")).id)).isSome
        || col.param
        || (!col.isJoinRelevant
            && (!((((col.refLinks.getD []).headD default).definition.kind == "entity"))
                || ((path.headD (Step.plain "")).id == a)))) = true := by
      rw [hab] at hcol2
      exact hcol2
    simp only [Bool.and_eq_true] at hab
    obtain ⟨hxn, hfan⟩ := hab
    have hx2 : col.xprT = none := Option.isNone_iff_eq_none.mp hxn
    have hfa2 : col.funcArgs = none := Option.isNone_iff_eq_none.mp hfan
    rcases hps : (pseudoElem? ((path.headD (Step.plain "")).id)).isSome with _ | _
    · rcases hpar : col.param with _ | _
      · -- the resolved ref: flatten via getFlatColumnsFor
        rw [hps, hpar] at hstep
        simp only [Bool.false_eq_true, if_false] at hstep
        have hthird : (!col.isJoinRelevant
            && (!((((col.refLinks.getD []).headD default).definition.kind == "entity"))
                || ((path.headD (Step.plain "")).id == a))) = true := by
          rw [hps, hpar] at hdisj
          simpa using hdisj
        simp only [Bool.and_eq_true] at hthird
        have hjr : col.isJoinRelevant = false := by
          rcases h0 : col.isJoinRelevant with _ | _
          · rfl
          · simp [h0] at hthird
        obtain ⟨ta, hsrc, hcont2⟩ := bind_ok_inv _ _ _ hstep
        have hta : ta = a := by
          refine gqsn_c2 env a hcomb
            { path := path, refLinks := col.refLinks.getD [],
              isJoinRelevant := col.isJoinRelevant } hjr ?_ ta hsrc
          exact hthird.2
        rw [hta] at hcont2
        try dsimp only [] at hcont2
        split at hcont2
        · simp only [pure, Except.pure, Except.ok.injEq] at hcont2
          subst hcont2
          exact hP
        · split at hcont2
          · simp only [pure, Except.pure, Except.ok.injEq] at hcont2
            subst hcont2
            exact hP
          · obtain ⟨flatColumns, hgf, hpure2⟩ := bind_ok_inv _ _ _ hcont2
            simp only [pure, Except.pure, Except.ok.injEq] at hpure2
            subst hpure2
            refine foldl_dedup_all _ flatColumns acc hP ?_
            intro fc hfc
            obtain ⟨x, hx⟩ := gfcf_paths env fuel _ _ _ a _ _ _ flatColumns ha hgf fc hfc
            exact flatcol_closed a fuel fc x hx
      · -- parameter refs pass through
        rw [hps, hpar] at hstep
        simp only [Bool.false_eq_true, if_false, if_true, pure, Except.pure,
          Except.ok.injEq] at hstep
        subst hstep
        have hclosed : outColClosed [a] fuel col.passthrough = true := by
          simp [outColClosed, Column.passthrough, href, hx2, hfa2, hpar]
        simp [List.all_append, hP, hclosed]
    · -- pseudo-rooted refs pass through
      rw [hps] at hstep
      simp only [if_true, pure, Except.pure, Except.ok.injEq] at hstep
      subst hstep
      have hpsN := hps
      rw [List.headD_eq_head?_getD] at hpsN
      have hclosed : outColClosed [a] fuel col.passthrough = true := by
        simp [outColClosed, Column.passthrough, href, hx2, hfa2, hpsN]
      simp [List.all_append, hP, hclosed]

/-- transformFrom on a single-step plain from clause: no where-exists
subqueries are built, the existing where clause is returned unchanged, and
the output from is the localized target of the link under the declared (or
default) alias. -/
theorem transformFrom_single (env : Env) (fuel : Nat) (st : List String)
    (root : String) (rl : RefLink) (asv : Option String) (ew : List Token) :
    transformFrom env fuel st { ref := [Step.plain root], refLinks := [rl], as := asv } ew
      = .ok (ew, { ref := [localizedName env rl.target],
                   as := asv.getD ((splitOnDot rl.definition.name).getLastD "") }, st) := by
  rcases ew with _ | ⟨e0, erest⟩ <;> rfl

/-- C2 (amended): reference closure with the verbatim-passthrough
exception, over the whole output query.  For a query whose from clause is a
single plain step with a declared alias, whose combined-elements index is
rooted in that alias, and whose where stream and columns range over the
modelled fragment (nested lists, xprs and function calls included): the
output from ref has length 1, the output alias is the declared alias, and
every ref in the output where stream and output columns (recursively, in
nested streams) either is a parameter or pseudo-rooted ref passed through
verbatim, or has exactly two steps with its head the output from alias.
The verbatim passthrough is the exception under which the plain closure of
the spec fails (c2_counterexample). -/
theorem c2_ref_closure (env0 : Env) (fuel : Nat) (q : RSelect) (o : OutQuery)
    (root : String) (rl : RefLink) (a : String)
    (hroot : q.frm.ref = [Step.plain root])
    (hlinks : q.frm.refLinks = [rl])
    (hAs : q.frm.as.getD ((splitOnDot rl.definition.name).getLastD "") = a)
    (ha : a ≠ "")
    (hcomb : ∀ pr ∈ env0.combined, (splitOnDot pr.2).getLastD "" = a)
    (hw : (q.whereTs.getD []).all (c2Tok a fuel) = true)
    (hcols : q.columns.all (c2Col a fuel) = true)
    (hok : cqn4sql env0 fuel q = .ok o) :
    o.frm.as = a
    ∧ o.frm.ref.length = 1
    ∧ o.whereTs.all (outClosedF [a] fuel) = true
    ∧ o.columns.all (outColClosed [a] fuel) = true := by
  rcases q with ⟨frm, columns, whereTs, lq, jt⟩
  rcases frm with ⟨r, ls, asv⟩
  simp only [] at hroot hlinks hAs hw hcols hok
  subst hroot
  subst hlinks
  have hcomb2 : ∀ pr ∈ ({ env0 with localizedQ := lq } : Env).combined,
      (splitOnDot pr.2).getLastD "" = a := hcomb
  unfold cqn4sql at hok
  try dsimp only [] at hok
  rcases hwq : whereTs with _ | w
  · simp only [hwq] at hok
    obtain ⟨tw, htw, hcont⟩ := bind_ok_inv _ _ _ hok
    simp only [pure, Except.pure, Except.ok.injEq] at htw
    subst htw
    have htwc : ([] : List Token).all (outClosedF [a] fuel) = true := rfl
    try dsimp only [] at hcont
    rw [transformFrom_single] at hcont
    simp only [bind, Except.bind] at hcont
    try dsimp only [] at hcont
    rcases hce : columns.isEmpty with _ | _
    · simp only [hce, Bool.false_eq_true, if_false] at hcont
      obtain ⟨cols2, hgc, hfin⟩ := bind_ok_inv _ _ _ hcont
      have hcols2c : cols2.all (outColClosed [a] fuel) = true :=
        gtc_c2 { env0 with localizedQ := lq } a ha hcomb2 fuel columns cols2 hcols hgc
      try dsimp only [] at hfin
      rcases hjt : jt with _ | _
      · rw [hjt] at hfin
        simp only [Bool.false_eq_true, if_false, pure, Except.pure, Except.ok.injEq] at hfin
        subst hfin
        exact ⟨hAs, rfl, htwc, hcols2c⟩
      · rw [hjt] at hfin
        simp only [if_true] at hfin
        try simp only [bind, Except.bind] at hfin
        exact Except.noConfusion hfin
    · simp only [hce, if_true, bind, Except.bind] at hcont
      exact Except.noConfusion hcont
  · simp only [hwq] at hok
    obtain ⟨tw, htw, hcont⟩ := bind_ok_inv _ _ _ hok
    rw [hwq] at hw
    simp only [Option.getD] at hw
    have htwc : tw.all (outClosedF [a] fuel) = true :=
      (gtts_c2 { env0 with localizedQ := lq } a hcomb2 fuel w tw hw htw).1
    try dsimp only [] at hcont
    rw [transformFrom_single] at hcont
    simp only [bind, Except.bind] at hcont
    try dsimp only [] at hcont
    rcases hce : columns.isEmpty with _ | _
    · simp only [hce, Bool.false_eq_true, if_false] at hcont
      obtain ⟨cols2, hgc, hfin⟩ := bind_ok_inv _ _ _ hcont
      have hcols2c : cols2.all (outColClosed [a] fuel) = true :=
        gtc_c2 { env0 with localizedQ := lq } a ha hcomb2 fuel columns cols2 hcols hgc
      try dsimp only [] at hfin
      rcases hjt : jt with _ | _
      · rw [hjt] at hfin
        simp only [Bool.false_eq_true, if_false, pure, Except.pure, Except.ok.injEq] at hfin
        subst hfin
        exact ⟨hAs, rfl, htwc, hcols2c⟩
      · rw [hjt] at hfin
        simp only [if_true] at hfin
        try simp only [bind, Except.bind] at hfin
        exact Except.noConfusion hfin
    · simp only [hce, if_true, bind, Except.bind] at hcont
      exact Except.noConfusion hcont

/-- Witness for the amended C2 on the fixture query: the scalar ref column
flattens to the alias-rooted two-step form, the pseudo ref passes through
verbatim, and the whole output query satisfies closure-with-exception. -/
theorem c2_ref_closure_witness :
    oFixC2.frm.as = "Books"
    ∧ oFixC2.frm.ref.length = 1
    ∧ oFixC2.whereTs.all (outClosedF ["Books"] 10) = true
    ∧ oFixC2.columns.all (outColClosed ["Books"] 10) = true :=
  c2_ref_closure fixEnv 10 qFix oFixC2 "Books" booksLinkFix "Books"
    rfl rfl rfl (by decide) (by decide) rfl rfl rfl

/-- C2 counterexample: on the fixture query the rewritten where stream
keeps the pseudo ref with two steps rooted in the pseudo name, which is not
an alias of the output from clause, violating the plain reference closure
of the spec. -/
theorem c2_counterexample :
    ∃ o, cqn4sql fixEnv 10 qFix = Except.ok o
      ∧ o.whereTs.all (tokRefClosed [o.frm.as]) = false :=
  ⟨_, rfl, rfl⟩

end CqnSql
